import Mathlib

/-!
Verification of the FCPXML chapter-marker extraction tool (`src/main.py`).

The program is embedded shallowly: file contents are `List Char`, Python
floats are modelled as exact rationals `ℚ`, and the regular-expression scan
performed by `re.compile(r'<chapter-marker\b[^>]*\bstart="([^"]+?)s"[^>]*
\bvalue="([^"]*?)"[^>]*>', re.DOTALL).finditer` is embedded as an explicit
leftmost backtracking matcher with the same greedy/lazy priorities as
Python's engine.  Filesystem access is abstracted by a record of pure
functions.
-/

namespace FCPX

/-- Python's `\w` word-character class, restricted to the ASCII fragment
(letters, digits, underscore) that the scanned format uses around the
`\b` boundaries of the pattern. -/
def wordChar (ch : Char) : Bool := ch.isAlphanum || ch = '_'

/-- Whitespace stripped by Python's `str.strip()` (ASCII fragment). -/
def pyspace (ch : Char) : Bool :=
  ch = ' ' || ch = '\t' || ch = '\n' || ch = '\r' ||
    ch = Char.ofNat 11 || ch = Char.ofNat 12

/-- Python's `str.strip()`: drop leading and trailing whitespace. -/
def pystrip (s : List Char) : List Char :=
  ((s.dropWhile pyspace).reverse.dropWhile pyspace).reverse

/-- Numeric value of a list of decimal digit characters. -/
def digVal (ds : List Char) : ℕ :=
  ds.foldl (fun a ch => a * 10 + (ch.toNat - 48)) 0

/-- Exponent part of Python's `float(str)`: an optional sign and at
least one digit, consumed to the end of the text. -/
def pyfloatExp (mant : ℚ) (r3 : List Char) : Option ℚ :=
  let esg : ℤ := if r3.head? = some '-' then -1 else 1
  let r4 := if r3.head? = some '+' ∨ r3.head? = some '-' then r3.tail else r3
  let ed := r4.takeWhile Char.isDigit
  if ed = [] ∨ r4.dropWhile Char.isDigit ≠ [] then none
  else some (mant * (10 : ℚ) ^ (esg * (digVal ed : ℤ)))

/-- Python's `float(str)` on the decimal fragment the tool can meet:
optional surrounding whitespace, optional sign, digits with an optional
decimal point (at least one digit), and an optional exponent.  The value
is kept as an exact rational; `inf`/`nan` spellings and digit-group
underscores are outside the modelled fragment.  `none` models `ValueError`. -/
def pyfloat (s0 : List Char) : Option ℚ :=
  let s := pystrip s0
  let sg : ℚ := if s.head? = some '-' then -1 else 1
  let s1 := if s.head? = some '+' ∨ s.head? = some '-' then s.tail else s
  let ip := s1.takeWhile Char.isDigit
  let r1 := s1.dropWhile Char.isDigit
  let fp := if r1.head? = some '.' then r1.tail.takeWhile Char.isDigit else []
  let r2 := if r1.head? = some '.' then r1.tail.dropWhile Char.isDigit else r1
  if ip = [] ∧ fp = [] then none
  else
    let mant : ℚ :=
      sg * ((digVal ip : ℚ) + (digVal fp : ℚ) / (10 : ℚ) ^ fp.length)
    if r2 = [] then some mant
    else if r2.head? = some 'e' ∨ r2.head? = some 'E' then
      pyfloatExp mant r2.tail
    else none

/-- Python's `str.split(sep)` for a one-character separator: empty parts
are kept, and the empty string splits to `[""]`. -/
def pysplit (sep : Char) : List Char → List (List Char)
  | [] => [[]]
  | ch :: s =>
    if ch = sep then [] :: pysplit sep s
    else
      match pysplit sep s with
      | p :: ps => (ch :: p) :: ps
      | [] => [[ch]]

/-- Division step of `fraction_to_float`: `float(numerator)` then
`float(denominator)` then float division; an unparsable part
(`ValueError`) or a zero divisor (`ZeroDivisionError`) falls to the
caught branch, modelled as `0`. -/
def divOrZero : Option ℚ → Option ℚ → ℚ
  | some a, some b => if b = 0 then 0 else a / b
  | some _, none => 0
  | none, _ => 0

/-- Two-element unpack of `fraction_string.split('/')`: any other arity
raises, landing in the caught branch. -/
def fracOfParts : List (List Char) → ℚ
  | [n, d] => divOrZero (pyfloat n) (pyfloat d)
  | _ => 0

/-- `fraction_to_float` from `src/main.py`: `X/Y` or a bare number to
seconds; any failure yields `0.0`. -/
def fraction_to_float (s : List Char) : ℚ :=
  if '/' ∈ s then fracOfParts (pysplit '/' s)
  else (pyfloat s).getD 0

/-- Python's `int()` on a float: truncation toward zero. -/
def pytrunc (q : ℚ) : ℤ := if q < 0 then ⌈q⌉ else ⌊q⌋

/-- Python's `'{:02d}'.format`: zero-pad to total width 2 (the sign
occupies one column for negative numbers, as in Python). -/
def pad02 (n : ℤ) : List Char :=
  if n < 0 then '-' :: Nat.toDigits 10 n.natAbs
  else if n < 10 then '0' :: Nat.toDigits 10 n.natAbs
  else Nat.toDigits 10 n.natAbs

/-- `format_time` from `src/main.py`: `int(seconds) // 60` and
`int(seconds) % 60` (Python floor division and modulo), each zero-padded
to width 2 and joined by `:`. -/
def format_time (seconds : ℚ) : List Char :=
  pad02 (Int.fdiv (pytrunc seconds) 60) ++
    ':' :: pad02 (Int.fmod (pytrunc seconds) 60)

/-! ### The scanning pattern

`<chapter-marker\b[^>]*\bstart="([^"]+?)s"[^>]*\bvalue="([^"]*?)"[^>]*>`
compiled with `re.DOTALL`.  The matcher below mirrors Python's
backtracking engine on exactly this pattern: greedy `[^>]*` pieces try the
longest extension first, lazy `([^"]+?)`/`([^"]*?)` groups try the
shortest first, and `\b` is a word/non-word boundary test. -/

/-- Left-biased choice, the backtracking combinator. -/
def ofirst : Option α → Option α → Option α
  | some x, _ => some x
  | none, b => b

/-- Result of one pattern match: start capture, value capture, and the
text remaining after the match. -/
abbrev MatchRes := List Char × List Char × List Char

/-- The literal `<chapter-marker`. -/
def chapLit : List Char :=
  ['<', 'c', 'h', 'a', 'p', 't', 'e', 'r', '-', 'm', 'a', 'r', 'k', 'e', 'r']

/-- The literal `start="`. -/
def startLit : List Char := ['s', 't', 'a', 'r', 't', '=', '"']

/-- The literal `value="`. -/
def valueLit : List Char := ['v', 'a', 'l', 'u', 'e', '=', '"']

/-- Whether the text has an occurrence of `pat` starting at a word
boundary (`p` is the character just before the text): the boundary test
the pattern's `\b` applies before `start="` and `value="`. -/
def hasSubB (pat : List Char) (p : Char) : List Char → Bool
  | [] => false
  | ch :: s =>
    (!wordChar p && ((ch :: s).take pat.length == pat)) || hasSubB pat ch s

/-- Tail of the pattern, `[^>]*>`: skip non-`>` characters, consume the
first `>`, and report the captures with the remaining text. -/
def m6 (t acc : List Char) : List Char → Option MatchRes
  | [] => none
  | ch :: s => if ch = '>' then some (t, acc, s) else m6 t acc s

/-- The lazy group `([^"]*?)"` followed by the pattern tail: the shortest
capture is tried first, so the group closes at the first `"`. -/
def g2 (t acc : List Char) : List Char → Option MatchRes
  | [] => none
  | ch :: s => if ch = '"' then m6 t acc s else g2 t (acc ++ [ch]) s

/-- Attempt of `\bvalue="` at the current position (`prev` is the
character just before it), continuing with the lazy value group. -/
def stopV (t : List Char) (prev : Char) (s : List Char) : Option MatchRes :=
  if wordChar prev then none
  else if s.take 7 = valueLit then g2 t [] (s.drop 7) else none

/-- The greedy `[^>]*` before `\bvalue="`: longer extensions are tried
before stopping to match the literal here. -/
def m4 (t : List Char) (prev : Char) : List Char → Option MatchRes
  | [] => stopV t prev []
  | ch :: s =>
    ofirst (if ch = '>' then none else m4 t ch s) (stopV t prev (ch :: s))

/-- The lazy group `([^"]+?)s"`: at least one non-quote character; the
earliest possible `s"` close is tried first, extending on failure. -/
def g1 (acc : List Char) : List Char → Option MatchRes
  | [] => none
  | ch :: s =>
    if ch = 's' ∧ s.head? = some '"' ∧ acc ≠ [] then
      ofirst (m4 acc '"' s.tail) (g1 (acc ++ [ch]) s)
    else if ch = '"' then none
    else g1 (acc ++ [ch]) s

/-- Attempt of `\bstart="` at the current position, continuing with the
lazy start group. -/
def stopS (prev : Char) (s : List Char) : Option MatchRes :=
  if wordChar prev then none
  else if s.take 7 = startLit then g1 [] (s.drop 7) else none

/-- The greedy `[^>]*` before `\bstart="`. -/
def m2 (prev : Char) : List Char → Option MatchRes
  | [] => stopS prev []
  | ch :: s =>
    ofirst (if ch = '>' then none else m2 ch s) (stopS prev (ch :: s))

/-- Anchored match of the whole pattern at the start of `s`: the literal
`<chapter-marker`, the `\b` after it, then the attribute parts. -/
def matchAt (s : List Char) : Option MatchRes :=
  if s.take 15 = chapLit then
    match s.drop 15 with
    | [] => none
    | ch :: s1 => if wordChar ch then none else m2 'r' (ch :: s1)
  else none

theorem ofirst_eq_some {a b : Option α} {x : α} (h : ofirst a b = some x) :
    a = some x ∨ (a = none ∧ b = some x) := by
  cases a with
  | some y => left; simpa [ofirst] using h
  | none => right; simpa [ofirst] using h

theorem m6_length : ∀ (s : List Char) (t acc : List Char) (r : MatchRes),
    m6 t acc s = some r → r.2.2.length < s.length := by
  intro s
  induction s with
  | nil => intro t acc r h; simp [m6] at h
  | cons ch s ih =>
    intro t acc r h
    simp only [m6] at h
    split at h
    · cases h; simp
    · have := ih t acc r h; simpa using Nat.lt_succ_of_lt this

theorem g2_length : ∀ (s : List Char) (t acc : List Char) (r : MatchRes),
    g2 t acc s = some r → r.2.2.length < s.length := by
  intro s
  induction s with
  | nil => intro t acc r h; simp [g2] at h
  | cons ch s ih =>
    intro t acc r h
    simp only [g2] at h
    split at h
    · have := m6_length s t acc r h; simpa using Nat.lt_succ_of_lt this
    · have := ih t _ r h; simpa using Nat.lt_succ_of_lt this

theorem stopV_length {s : List Char} {t : List Char} {prev : Char} {r : MatchRes}
    (h : stopV t prev s = some r) : r.2.2.length < s.length := by
  unfold stopV at h
  split at h
  · exact absurd h (by simp)
  split at h
  · have h1 := g2_length (s.drop 7) t [] r h
    exact lt_of_lt_of_le h1 (by simpa using List.length_drop_le 7 s)
  · exact absurd h (by simp)

theorem m4_length : ∀ (s : List Char) (t : List Char) (prev : Char) (r : MatchRes),
    m4 t prev s = some r → r.2.2.length < s.length := by
  intro s
  induction s with
  | nil => intro t prev r h; simp only [m4] at h; exact stopV_length h
  | cons ch s ih =>
    intro t prev r h
    simp only [m4] at h
    rcases ofirst_eq_some h with h1 | ⟨-, h2⟩
    · split at h1
      · simp at h1
      · have := ih t ch r h1; simpa using Nat.lt_succ_of_lt this
    · exact stopV_length h2

theorem g1_length : ∀ (s : List Char) (acc : List Char) (r : MatchRes),
    g1 acc s = some r → r.2.2.length < s.length := by
  intro s
  induction s with
  | nil => intro acc r h; simp [g1] at h
  | cons ch s ih =>
    intro acc r h
    simp only [g1] at h
    split at h
    · rcases ofirst_eq_some h with h1 | ⟨-, h2⟩
      · have h3 := m4_length s.tail acc '"' r h1
        have h4 : s.tail.length ≤ s.length := by
          cases s <;> simp
        exact Nat.lt_succ_of_lt (lt_of_lt_of_le h3 h4)
      · have := ih _ r h2; simpa using Nat.lt_succ_of_lt this
    · split at h
      · simp at h
      · have := ih _ r h; simpa using Nat.lt_succ_of_lt this

theorem stopS_length {s : List Char} {prev : Char} {r : MatchRes}
    (h : stopS prev s = some r) : r.2.2.length < s.length := by
  unfold stopS at h
  split at h
  · exact absurd h (by simp)
  split at h
  · have h1 := g1_length (s.drop 7) [] r h
    exact lt_of_lt_of_le h1 (by simpa using List.length_drop_le 7 s)
  · exact absurd h (by simp)

theorem m2_length : ∀ (s : List Char) (prev : Char) (r : MatchRes),
    m2 prev s = some r → r.2.2.length < s.length := by
  intro s
  induction s with
  | nil => intro prev r h; simp only [m2] at h; exact stopS_length h
  | cons ch s ih =>
    intro prev r h
    simp only [m2] at h
    rcases ofirst_eq_some h with h1 | ⟨-, h2⟩
    · split at h1
      · simp at h1
      · have := ih ch r h1; simpa using Nat.lt_succ_of_lt this
    · exact stopS_length h2

theorem matchAt_length {s : List Char} {r : MatchRes}
    (h : matchAt s = some r) : r.2.2.length < s.length := by
  unfold matchAt at h
  split at h
  · split at h
    · simp at h
    · rename_i heq
      split at h
      · simp at h
      · have h1 := m2_length _ _ r h
        rw [← heq] at h1
        have h2 : (s.drop 15).length ≤ s.length := by
          simpa using List.length_drop_le 15 s
        exact lt_of_lt_of_le h1 h2
  · simp at h

/-- `pattern.finditer` over the whole text: scan left to right, emitting
each non-overlapping match (captures only) and resuming right after it;
on failure advance one character. -/
def finditer (s : List Char) : List (List Char × List Char) :=
  match h : matchAt s with
  | some (t, v, rest) => (t, v) :: finditer rest
  | none =>
    match s with
    | [] => []
    | _ :: s' => finditer s'
termination_by s.length
decreasing_by
  · exact matchAt_length h
  · simp

theorem finditer_nil : finditer [] = [] := by
  rw [finditer]
  split
  · rename_i t v r h
    simp [matchAt, chapLit] at h
  · rfl

theorem finditer_match {s : List Char} {t v rest : List Char}
    (h : matchAt s = some (t, v, rest)) :
    finditer s = (t, v) :: finditer rest := by
  rw [finditer]
  split
  · rename_i t' v' r' h'
    rw [h] at h'
    cases h'
    rfl
  · rename_i h'
    rw [h] at h'
    cases h'

theorem finditer_nomatch {ch : Char} {s : List Char}
    (h : matchAt (ch :: s) = none) :
    finditer (ch :: s) = finditer s := by
  rw [finditer]
  split
  · rename_i t' v' r' h'
    rw [h] at h'
    cases h'
  · rfl

/-- A text at none of whose positions the pattern matches scans to the
empty match list. -/
theorem finditer_eq_nil (s : List Char)
    (h : ∀ n, n ≤ s.length → matchAt (s.drop n) = none) : finditer s = [] := by
  induction s with
  | nil => exact finditer_nil
  | cons ch s ih =>
    have h0 := h 0 (by simp)
    simp at h0
    rw [finditer_nomatch h0]
    exact ih (fun n hn => by simpa using h (n + 1) (by simpa using hn))

/-! ### The extraction loop of `extract_markers` -/

/-- The `for m in pattern.finditer(content)` loop of `extract_markers`:
strip both captures, skip the match when the stripped label was already
seen, otherwise record the label as seen and append the pair of the
parsed seconds and the stripped formatted line. -/
def markerLoop :
    List (List Char × List Char) → List (List Char) → List (ℚ × List Char) →
      List (ℚ × List Char)
  | [], _, acc => acc
  | (st, vl) :: ms, seen, acc =>
    if pystrip vl ∈ seen then markerLoop ms seen acc
    else
      markerLoop ms (pystrip vl :: seen)
        (acc ++ [(fraction_to_float (pystrip st),
          pystrip (format_time (fraction_to_float (pystrip st)) ++
            ' ' :: pystrip vl))])

/-- `extract_markers` from `src/main.py`, with the file contents passed
directly: scan, deduplicate by stripped label, and return the formatted
lines in order. -/
def extract_markers (content : List Char) : List (List Char) :=
  (markerLoop (finditer content) [] []).map Prod.snd

/-- Stripped label of one raw match. -/
def stripLabel (m : List Char × List Char) : List Char := pystrip m.2

/-- The formatted line the loop produces for one retained match. -/
def fmtLine (m : List Char × List Char) : List Char :=
  pystrip (format_time (fraction_to_float (pystrip m.1)) ++ ' ' :: pystrip m.2)

/-- Matches retained by the loop: the first occurrence of each stripped
label, given the labels already seen. -/
def dedupFirstAux (seen : List (List Char)) :
    List (List Char × List Char) → List (List Char × List Char)
  | [] => []
  | m :: ms =>
    if stripLabel m ∈ seen then dedupFirstAux seen ms
    else m :: dedupFirstAux (stripLabel m :: seen) ms

/-- Matches retained by the loop, starting from nothing seen. -/
def dedupFirst (ms : List (List Char × List Char)) :
    List (List Char × List Char) := dedupFirstAux [] ms

/-- First-occurrence deduplication of a list of labels, given labels
already seen. -/
def keepFirstAux (seen : List (List Char)) : List (List Char) → List (List Char)
  | [] => []
  | x :: xs =>
    if x ∈ seen then keepFirstAux seen xs else x :: keepFirstAux (x :: seen) xs

/-- First-occurrence deduplication of a list of labels: each distinct
label once, in the order of its first appearance. -/
def keepFirst (l : List (List Char)) : List (List Char) := keepFirstAux [] l

/-! ### Path resolution and the main program

`os.path`/`os.listdir` effects are abstracted into a record of pure
functions describing the filesystem the run sees. -/

/-- The filesystem as the program observes it. -/
structure FS where
  isFile : List Char → Bool
  isDir : List Char → Bool
  listdir : List Char → List (List Char)
  readFile : List Char → List Char

/-- `os.path.join` for the shapes the tool uses (a directory joined with
a relative entry name; an absolute second part wins). -/
def joinPath (d f : List Char) : List Char :=
  if f.head? = some '/' then f
  else if d = [] then f
  else if d.getLast? = some '/' then d ++ f else d ++ '/' :: f

/-- Python `entry.lower().endswith('.fcpxml')` (ASCII lowering). -/
def endsFcpxml (e : List Char) : Bool :=
  (".fcpxml".toList).isSuffixOf (e.map Char.toLower)

/-- `resolve_input_path` from `src/main.py`: directories resolve to their
`Info.fcpxml`, else to the first listed entry ending in `.fcpxml`
case-insensitively, else fail; non-directories must be regular files.
`Except.error` models the raised `FileNotFoundError` with its message. -/
def resolve_input_path (fs : FS) (input_path : List Char) :
    Except (List Char) (List Char) :=
  if fs.isDir input_path then
    let info := joinPath input_path ("Info.fcpxml".toList)
    if fs.isFile info then .ok info
    else
      match (fs.listdir input_path).find? endsFcpxml with
      | some entry => .ok (joinPath input_path entry)
      | none =>
        .error ("在文件夹 ".toList ++ input_path ++
          " 中未找到 Info.fcpxml 或其他 .fcpxml 文件".toList)
  else
    if fs.isFile input_path then .ok input_path
    else .error ("输入文件 ".toList ++ input_path ++ " 不存在".toList)

/-- Observable outcome of one run of `main`: the lines printed to
standard output, and the output write (path and lines) if one happened. -/
structure MainOut where
  printed : List (List Char)
  wrote : Option (List Char × List (List Char))
deriving DecidableEq

/-- `main` from `src/main.py` with parsed arguments: resolve the input
path (on failure print the error and stop without writing), optionally
report the resolved path, extract the markers and write them out. -/
def pymain (fs : FS) (input output : List Char) : MainOut :=
  match resolve_input_path fs input with
  | .error e => { printed := ["错误: ".toList ++ e], wrote := none }
  | .ok p =>
    let pre : List (List Char) :=
      if p ≠ input then ["解析到 FCPXML 文件: ".toList ++ p] else []
    let ms := extract_markers (fs.readFile p)
    { printed :=
        pre ++ ["已写入 ".toList ++ Nat.toDigits 10 ms.length ++
          " 条时间标记到 ".toList ++ output],
      wrote := some (output, ms) }

/-- The lines the loop produces from a list of raw matches (the
`finditer` output), starting from nothing seen. -/
def markerLines (ms : List (List Char × List Char)) : List (List Char) :=
  (markerLoop ms [] []).map Prod.snd

/-! ### Lemmas about the deduplicating loop -/

theorem markerLoop_eq :
    ∀ (ms : List (List Char × List Char)) (seen : List (List Char))
      (acc : List (ℚ × List Char)),
    markerLoop ms seen acc = acc ++ (dedupFirstAux seen ms).map
      (fun m => (fraction_to_float (pystrip m.1), fmtLine m)) := by
  intro ms
  induction ms with
  | nil => intro seen acc; simp [markerLoop, dedupFirstAux]
  | cons m ms ih =>
    intro seen acc
    obtain ⟨st, vl⟩ := m
    by_cases hmem : pystrip vl ∈ seen
    · rw [show markerLoop ((st, vl) :: ms) seen acc =
          markerLoop ms seen acc from by
        simp only [markerLoop, if_pos hmem]]
      rw [show dedupFirstAux seen ((st, vl) :: ms) = dedupFirstAux seen ms
        from by simp only [dedupFirstAux, stripLabel, if_pos hmem]]
      exact ih seen acc
    · rw [show markerLoop ((st, vl) :: ms) seen acc =
          markerLoop ms (pystrip vl :: seen)
            (acc ++ [(fraction_to_float (pystrip st),
              pystrip (format_time (fraction_to_float (pystrip st)) ++
                ' ' :: pystrip vl))]) from by
        simp only [markerLoop, if_neg hmem]]
      rw [show dedupFirstAux seen ((st, vl) :: ms) =
          (st, vl) :: dedupFirstAux (pystrip vl :: seen) ms from by
        simp only [dedupFirstAux, stripLabel, if_neg hmem]]
      rw [ih _ _]
      simp [fmtLine]

theorem markerLines_eq (ms : List (List Char × List Char)) :
    markerLines ms = (dedupFirst ms).map fmtLine := by
  unfold markerLines dedupFirst
  rw [markerLoop_eq]
  simp

theorem extract_markers_eq (content : List Char) :
    extract_markers content = markerLines (finditer content) := rfl

theorem dedupFirstAux_map_label :
    ∀ (ms : List (List Char × List Char)) (seen : List (List Char)),
    (dedupFirstAux seen ms).map stripLabel =
      keepFirstAux seen (ms.map stripLabel) := by
  intro ms
  induction ms with
  | nil => intro seen; simp [dedupFirstAux, keepFirstAux]
  | cons m ms ih =>
    intro seen
    by_cases hmem : stripLabel m ∈ seen
    · simp only [dedupFirstAux, if_pos hmem, List.map_cons, keepFirstAux,
        if_pos hmem]
      exact ih seen
    · simp only [dedupFirstAux, if_neg hmem, List.map_cons, keepFirstAux,
        if_neg hmem]
      rw [ih]

theorem keepFirstAux_not_mem_seen :
    ∀ (l seen : List (List Char)) (x : List Char),
    x ∈ keepFirstAux seen l → x ∉ seen := by
  intro l
  induction l with
  | nil => intro seen x h; simp [keepFirstAux] at h
  | cons y l ih =>
    intro seen x h
    by_cases hmem : y ∈ seen
    · rw [keepFirstAux, if_pos hmem] at h
      exact ih seen x h
    · rw [keepFirstAux, if_neg hmem] at h
      rcases List.mem_cons.mp h with rfl | h
      · exact hmem
      · intro hx
        exact ih _ x h (List.mem_cons_of_mem _ hx)

theorem keepFirstAux_nodup : ∀ (l seen : List (List Char)),
    (keepFirstAux seen l).Nodup := by
  intro l
  induction l with
  | nil => intro seen; simp [keepFirstAux]
  | cons y l ih =>
    intro seen
    by_cases hmem : y ∈ seen
    · rw [keepFirstAux, if_pos hmem]; exact ih seen
    · rw [keepFirstAux, if_neg hmem]
      refine List.nodup_cons.mpr ⟨?_, ih _⟩
      intro hy
      exact keepFirstAux_not_mem_seen l (y :: seen) y hy (by simp)

theorem keepFirstAux_length : ∀ (l seen : List (List Char)),
    (keepFirstAux seen l).length = (l.toFinset \ seen.toFinset).card := by
  intro l
  induction l with
  | nil => intro seen; simp [keepFirstAux]
  | cons y l ih =>
    intro seen
    by_cases hmem : y ∈ seen
    · rw [keepFirstAux, if_pos hmem, ih]
      congr 1
      rw [List.toFinset_cons, Finset.insert_sdiff_of_mem]
      simpa using hmem
    · rw [keepFirstAux, if_neg hmem]
      simp only [List.length_cons, ih]
      have hset : (y :: l).toFinset \ seen.toFinset =
          insert y (l.toFinset \ (y :: seen).toFinset) := by
        ext z
        simp only [List.toFinset_cons, Finset.mem_sdiff, Finset.mem_insert,
          List.mem_toFinset]
        constructor
        · rintro ⟨hz1 | hz1, hz2⟩
          · exact Or.inl hz1
          · by_cases hzy : z = y
            · exact Or.inl hzy
            · exact Or.inr ⟨hz1, by simp [hzy, hz2]⟩
        · rintro (rfl | ⟨hz1, hz2⟩)
          · exact ⟨Or.inl rfl, hmem⟩
          · exact ⟨Or.inr hz1, fun hzs => hz2 (by simp [hzs])⟩
      rw [hset, Finset.card_insert_of_not_mem (by simp)]

theorem dedupFirstAux_drop :
    ∀ (ms₁ : List (List Char × List Char)) (seen : List (List Char))
      (m : List Char × List Char) (ms₂ : List (List Char × List Char)),
    (stripLabel m ∈ seen ∨ ∃ m' ∈ ms₁, stripLabel m' = stripLabel m) →
    dedupFirstAux seen (ms₁ ++ m :: ms₂) = dedupFirstAux seen (ms₁ ++ ms₂) := by
  intro ms₁
  induction ms₁ with
  | nil =>
    intro seen m ms₂ h
    rcases h with h | ⟨m', hm', _⟩
    · simp only [List.nil_append, dedupFirstAux, if_pos h]
    · simp at hm'
  | cons m₀ ms₁ ih =>
    intro seen m ms₂ h
    simp only [List.cons_append, dedupFirstAux]
    by_cases hmem : stripLabel m₀ ∈ seen
    · rw [if_pos hmem, if_pos hmem]
      apply ih
      rcases h with h | ⟨m', hm', he⟩
      · exact Or.inl h
      · rcases List.mem_cons.mp hm' with rfl | hm'
        · exact Or.inl (he ▸ hmem)
        · exact Or.inr ⟨m', hm', he⟩
    · rw [if_neg hmem, if_neg hmem]
      congr 1
      apply ih
      rcases h with h | ⟨m', hm', he⟩
      · exact Or.inl (List.mem_cons_of_mem _ h)
      · rcases List.mem_cons.mp hm' with rfl | hm'
        · exact Or.inl (he ▸ List.mem_cons_self _ _)
        · exact Or.inr ⟨m', hm', he⟩

theorem dedupFirstAux_filter_seen :
    ∀ (ms : List (List Char × List Char)) (seen : List (List Char))
      (X : List Char), X ∈ seen →
    (dedupFirstAux seen ms).filter (fun e => stripLabel e = X) = [] := by
  intro ms
  induction ms with
  | nil => intro seen X _; simp [dedupFirstAux]
  | cons m ms ih =>
    intro seen X hX
    by_cases hmem : stripLabel m ∈ seen
    · rw [dedupFirstAux, if_pos hmem]
      exact ih seen X hX
    · rw [dedupFirstAux, if_neg hmem]
      have hne : stripLabel m ≠ X := fun he => hmem (he ▸ hX)
      rw [List.filter_cons_of_neg (by simpa using hne)]
      exact ih _ X (List.mem_cons_of_mem _ hX)

theorem dedupFirstAux_filter_first :
    ∀ (ms : List (List Char × List Char)) (seen : List (List Char))
      (X : List Char), X ∉ seen →
    (dedupFirstAux seen ms).filter (fun e => stripLabel e = X) =
      (match ms.find? (fun e => stripLabel e = X) with
        | some m => [m]
        | none => []) := by
  intro ms
  induction ms with
  | nil => intro seen X _; simp [dedupFirstAux]
  | cons m ms ih =>
    intro seen X hX
    by_cases hlab : stripLabel m = X
    · have hmem : stripLabel m ∉ seen := fun h => hX (hlab ▸ h)
      rw [dedupFirstAux, if_neg hmem]
      rw [List.filter_cons_of_pos (by simpa using hlab)]
      rw [List.find?_cons_of_pos _ (by simpa using hlab)]
      rw [dedupFirstAux_filter_seen ms _ X (by simp [hlab])]
    · have hfind : List.find? (fun e => stripLabel e = X) (m :: ms) =
          List.find? (fun e => stripLabel e = X) ms :=
        List.find?_cons_of_neg _ (by simpa using hlab)
      rw [hfind]
      by_cases hmem : stripLabel m ∈ seen
      · rw [dedupFirstAux, if_pos hmem]
        exact ih seen X hX
      · rw [dedupFirstAux, if_neg hmem]
        rw [List.filter_cons_of_neg (by simpa using hlab)]
        refine ih _ X ?_
        intro hin
        rcases List.mem_cons.mp hin with he | he
        · exact hlab he.symm
        · exact hX he

/-! ### Pure list lemmas used by the matcher analysis -/

theorem take7_ne_at {s lit : List Char} {i : ℕ} {a b : Char} (hi : i < 7)
    (hs : s[i]? = some a) (hl : lit[i]? = some b) (hab : a ≠ b) :
    s.take 7 ≠ lit := by
  intro h
  have h2 : (List.take 7 s)[i]? = some a := by
    rw [List.getElem?_take]
    simp [hi, hs]
  rw [h, hl] at h2
  exact hab (Option.some.inj h2).symm

theorem take7_ne_noquote {s lit : List Char} (h6 : lit[6]? = some '"')
    (hq : '"' ∉ s) : s.take 7 ≠ lit := by
  intro h
  have h3 : (List.take 7 s)[6]? = some '"' := by rw [h]; exact h6
  rw [List.getElem?_take] at h3
  simp only [show (6 : ℕ) < 7 by norm_num, if_true] at h3
  exact hq (List.getElem?_mem h3)

theorem take7_ne_mid {x r lit : List Char} {u : Char}
    (h6 : lit[6]? = some '"') (hq : '"' ∉ x) (hx : x ≠ [])
    (hr : r[0]? = some u)
    (hch : ∀ i, 1 ≤ i → i < 7 → lit[i]? ≠ some u) :
    (x ++ r).take 7 ≠ lit := by
  intro h
  by_cases hlen : x.length < 7
  · have h1 : (x ++ r)[x.length]? = some u := by
      rw [List.getElem?_append_right (le_refl _)]
      simpa using hr
    have h2 : ((x ++ r).take 7)[x.length]? = some u := by
      rw [List.getElem?_take]
      simp [hlen, h1]
    rw [h] at h2
    have hk1 : 1 ≤ x.length := by
      cases x
      · exact absurd rfl hx
      · simp
    exact hch x.length hk1 hlen h2
  · push_neg at hlen
    have h1 : ((x ++ r).take 7)[6]? = some '"' := by rw [h]; exact h6
    rw [List.getElem?_take] at h1
    simp only [show (6 : ℕ) < 7 by norm_num, if_true] at h1
    rw [List.getElem?_append_left (by omega)] at h1
    exact hq (List.getElem?_mem h1)

theorem take7_quote_pos (lit : List Char) {x r : List Char}
    (h6 : lit[6]? = some '"') (hqlit : ∀ i, i < 6 → lit[i]? ≠ some '"')
    (hx : '"' ∉ x) :
    (x ++ '"' :: r).take 7 = lit → x.length = 6 := by
  intro h
  rcases lt_trichotomy x.length 6 with hk | hk | hk
  · exfalso
    have h1 : (x ++ '"' :: r)[x.length]? = some '"' := by
      rw [List.getElem?_append_right (le_refl _)]
      simp
    have h2 : ((x ++ '"' :: r).take 7)[x.length]? = some '"' := by
      rw [List.getElem?_take]
      simp only [show x.length < 7 by omega, if_true]
      exact h1
    rw [h] at h2
    exact hqlit x.length hk h2
  · exact hk
  · exfalso
    have h1 : ((x ++ '"' :: r).take 7)[6]? = some '"' := by rw [h]; exact h6
    rw [List.getElem?_take] at h1
    simp only [show (6 : ℕ) < 7 by norm_num, if_true] at h1
    rw [List.getElem?_append_left (by omega)] at h1
    exact hx (List.getElem?_mem h1)

theorem drop7_quote {x r : List Char} (hx : x.length = 6) :
    (x ++ '"' :: r).drop 7 = r := by
  have h : x ++ '"' :: r = (x ++ ['"']) ++ r := by simp
  rw [h, List.drop_left' (by simp [hx])]

theorem suffix_append_cases {l x y : List Char} (h : l <:+ x ++ y) :
    l <:+ y ∨ ∃ x₂, x₂ <:+ x ∧ x₂ ≠ [] ∧ l = x₂ ++ y := by
  induction x with
  | nil => left; simpa using h
  | cons ch x ih =>
    rw [List.cons_append, List.suffix_cons_iff] at h
    rcases h with rfl | h
    · right
      exact ⟨ch :: x, List.suffix_refl _, by simp, by simp⟩
    · rcases ih h with h1 | ⟨x₂, hs, hne, rfl⟩
      · left; exact h1
      · right; exact ⟨x₂, hs.trans (List.suffix_cons _ _), hne, rfl⟩

theorem split_append_cases {A B x₁ x₂ : List Char} (h : A ++ B = x₁ ++ x₂) :
    (∃ y₁, x₁ = A ++ y₁ ∧ B = y₁ ++ x₂) ∨
      (∃ z, z ≠ [] ∧ A = x₁ ++ z ∧ x₂ = z ++ B) := by
  rcases List.append_eq_append_iff.mp h with ⟨a2, h1, h2⟩ | ⟨c2, h1, h2⟩
  · left; exact ⟨a2, h1, h2⟩
  · cases c2 with
    | nil => left; exact ⟨[], by simp [h1], by simp [h2]⟩
    | cons ch z => right; exact ⟨ch :: z, by simp, h1, h2⟩

theorem getLastD_append (a b : List Char) (d : Char) :
    (a ++ b).getLastD d = b.getLastD (a.getLastD d) := by
  induction a generalizing d with
  | nil => rfl
  | cons x a ih =>
    rw [List.cons_append, List.getLastD_cons, List.getLastD_cons, ih]

theorem getLastD_quote_append (P y : List Char) (d : Char) :
    ((P ++ ['"']) ++ y).getLastD d = y.getLastD '"' := by
  rw [getLastD_append, getLastD_append]
  rfl

theorem take7_ne_pre {x r lit : List Char} {u : Char}
    (hpre : x.take 7 ≠ lit) (hx : x ≠ []) (hr : r[0]? = some u)
    (hch : ∀ i, 1 ≤ i → i < 7 → lit[i]? ≠ some u) :
    (x ++ r).take 7 ≠ lit := by
  intro h
  by_cases hlen : x.length < 7
  · have h1 : (x ++ r)[x.length]? = some u := by
      rw [List.getElem?_append_right (le_refl _)]
      simpa using hr
    have h2 : ((x ++ r).take 7)[x.length]? = some u := by
      rw [List.getElem?_take]
      simp [hlen, h1]
    rw [h] at h2
    have hk1 : 1 ≤ x.length := by
      cases x
      · exact absurd rfl hx
      · simp
    exact hch x.length hk1 hlen h2
  · push_neg at hlen
    rw [List.take_append_of_le_length (by omega)] at h
    exact hpre h

theorem hasSubB_false_split (pat : List Char) (hp : pat ≠ []) :
    ∀ (x₁ : List Char) (p : Char) (x₂ : List Char),
      hasSubB pat p (x₁ ++ x₂) = false → wordChar (x₁.getLastD p) = false →
      x₂.take pat.length ≠ pat := by
  intro x₁
  induction x₁ with
  | nil =>
    intro p x₂ h hw
    cases x₂ with
    | nil =>
      intro he
      rw [List.take_nil] at he
      exact hp he.symm
    | cons ch s =>
      rw [List.nil_append] at h
      rw [show ([] : List Char).getLastD p = p from rfl] at hw
      have h1 := (Bool.or_eq_false_iff.mp h).1
      rw [hw] at h1
      simpa using h1
  | cons a x₁ ih =>
    intro p x₂ h hw
    rw [List.cons_append] at h
    have h2 := (Bool.or_eq_false_iff.mp h).2
    rw [List.getLastD_cons] at hw
    exact ih a x₂ h2 hw

/-! ### Failure of the lazy groups on quote-free text -/

theorem g1_noquote : ∀ (s acc : List Char), '"' ∉ s → g1 acc s = none := by
  intro s
  induction s with
  | nil => intro acc _; simp [g1]
  | cons ch s ih =>
    intro acc h
    have hch : ch ≠ '"' := fun hc => h (by simp [hc])
    have hs : '"' ∉ s := fun hm => h (List.mem_cons_of_mem _ hm)
    have hcond : ¬(ch = 's' ∧ s.head? = some '"' ∧ acc ≠ []) := by
      rintro ⟨-, hh, -⟩
      cases s with
      | nil => simp at hh
      | cons a s =>
        simp only [List.head?_cons, Option.some.injEq] at hh
        exact hs (by simp [hh])
    simp only [g1, if_neg hcond, if_neg hch]
    exact ih _ hs

theorem g2_noquote : ∀ (s t acc : List Char), '"' ∉ s → g2 t acc s = none := by
  intro s
  induction s with
  | nil => intro t acc _; simp [g2]
  | cons ch s ih =>
    intro t acc h
    have hch : ch ≠ '"' := fun hc => h (by simp [hc])
    have hs : '"' ∉ s := fun hm => h (List.mem_cons_of_mem _ hm)
    simp only [g2]
    split
    · rename_i h2; exact absurd h2 hch
    · exact ih t _ hs

/-! ### When an attempt of `\bstart="` or `\bvalue="` fails -/

theorem stopS_none_of_take (p : Char) {s : List Char}
    (h : s.take 7 ≠ startLit) : stopS p s = none := by
  simp [stopS, h]

theorem stopV_none_of_take (t : List Char) (p : Char) {s : List Char}
    (h : s.take 7 ≠ valueLit) : stopV t p s = none := by
  simp [stopV, h]

theorem stopS_none_word {p : Char} {s : List Char} (h : wordChar p = true) :
    stopS p s = none := by
  simp [stopS, h]

theorem stopV_none_word {t : List Char} {p : Char} {s : List Char}
    (h : wordChar p = true) : stopV t p s = none := by
  simp [stopV, h]

theorem stopS_none_head {p ch : Char} {s : List Char} (h : ch ≠ 's') :
    stopS p (ch :: s) = none :=
  stopS_none_of_take p
    (take7_ne_at (i := 0) (by norm_num)
      (show (ch :: s)[0]? = some ch by simp) (by decide) h)

theorem stopV_none_head {t : List Char} {p ch : Char} {s : List Char}
    (h : ch ≠ 'v') : stopV t p (ch :: s) = none :=
  stopV_none_of_take t p
    (take7_ne_at (i := 0) (by norm_num)
      (show (ch :: s)[0]? = some ch by simp) (by decide) h)

theorem stopS_none_noquote {p : Char} {s : List Char} (h : '"' ∉ s) :
    stopS p s = none :=
  stopS_none_of_take p (take7_ne_noquote (by decide) h)

theorem stopV_none_noquote {t : List Char} {p : Char} {s : List Char}
    (h : '"' ∉ s) : stopV t p s = none :=
  stopV_none_of_take t p (take7_ne_noquote (by decide) h)

/-! ### Backtracking collapse lemmas for the greedy pieces -/

theorem m2_none : ∀ (s : List Char) (p : Char),
    (∀ l, l <:+ s → ∀ q, stopS q l = none) → m2 p s = none := by
  intro s
  induction s with
  | nil =>
    intro p h
    simp only [m2]
    exact h [] (List.suffix_refl _) p
  | cons ch s ih =>
    intro p h
    have h1 : m2 ch s = none :=
      ih ch (fun l hl q => h l (hl.trans (List.suffix_cons ch s)) q)
    have h2 := h (ch :: s) (List.suffix_refl _) p
    by_cases hgt : ch = '>'
    · subst hgt; simp [m2, ofirst, h2]
    · simp [m2, hgt, h1, ofirst, h2]

theorem m4_none : ∀ (s : List Char) (t : List Char) (p : Char),
    (∀ l, l <:+ s → ∀ q, stopV t q l = none) → m4 t p s = none := by
  intro s
  induction s with
  | nil =>
    intro t p h
    simp only [m4]
    exact h [] (List.suffix_refl _) p
  | cons ch s ih =>
    intro t p h
    have h1 : m4 t ch s = none :=
      ih t ch (fun l hl q => h l (hl.trans (List.suffix_cons ch s)) q)
    have h2 := h (ch :: s) (List.suffix_refl _) p
    by_cases hgt : ch = '>'
    · subst hgt; simp [m4, ofirst, h2]
    · simp [m4, hgt, h1, ofirst, h2]

theorem m2_none_splits : ∀ (s : List Char) (p : Char),
    (∀ x₁ x₂, s = x₁ ++ x₂ → stopS (x₁.getLastD p) x₂ = none) →
    m2 p s = none := by
  intro s
  induction s with
  | nil =>
    intro p h
    simp only [m2]
    simpa using h [] [] rfl
  | cons ch s ih =>
    intro p h
    have h1 : m2 ch s = none := by
      apply ih ch
      intro x₁ x₂ hx
      have := h (ch :: x₁) x₂ (by rw [hx, List.cons_append])
      rwa [List.getLastD_cons] at this
    have h2 := h [] (ch :: s) rfl
    rw [show ([] : List Char).getLastD p = p from rfl] at h2
    by_cases hgt : ch = '>'
    · subst hgt; simp [m2, ofirst, h2]
    · simp [m2, hgt, h1, ofirst, h2]

theorem m4_none_splits : ∀ (s : List Char) (t : List Char) (p : Char),
    (∀ x₁ x₂, s = x₁ ++ x₂ → stopV t (x₁.getLastD p) x₂ = none) →
    m4 t p s = none := by
  intro s
  induction s with
  | nil =>
    intro t p h
    simp only [m4]
    simpa using h [] [] rfl
  | cons ch s ih =>
    intro t p h
    have h1 : m4 t ch s = none := by
      apply ih t ch
      intro x₁ x₂ hx
      have := h (ch :: x₁) x₂ (by rw [hx, List.cons_append])
      rwa [List.getLastD_cons] at this
    have h2 := h [] (ch :: s) rfl
    rw [show ([] : List Char).getLastD p = p from rfl] at h2
    by_cases hgt : ch = '>'
    · subst hgt; simp [m4, ofirst, h2]
    · simp [m4, hgt, h1, ofirst, h2]

theorem g1_none_splits : ∀ (s : List Char) (p : Char) (acc : List Char),
    (∀ x₁ x₂ (t0 : List Char), s = x₁ ++ x₂ →
      stopV t0 (x₁.getLastD p) x₂ = none) →
    g1 acc s = none := by
  intro s
  induction s with
  | nil => intro p acc _; simp [g1]
  | cons ch s ih =>
    intro p acc h
    have hext : g1 (acc ++ [ch]) s = none := by
      apply ih ch
      intro x₁ x₂ t0 hx
      have := h (ch :: x₁) x₂ t0 (by rw [hx, List.cons_append])
      rwa [List.getLastD_cons] at this
    by_cases hcond : ch = 's' ∧ s.head? = some '"' ∧ acc ≠ []
    · obtain ⟨hch, hh, hacc⟩ := hcond
      cases s with
      | nil => simp at hh
      | cons a s2 =>
        simp only [List.head?_cons, Option.some.injEq] at hh
        subst hh
        subst hch
        have hm4 : m4 acc '"' s2 = none := by
          apply m4_none_splits s2 acc '"'
          intro x₁ x₂ hx
          have := h ('s' :: '"' :: x₁) x₂ acc (by rw [hx]; rfl)
          rwa [List.getLastD_cons, List.getLastD_cons] at this
        have hone : g1 acc ('s' :: '"' :: s2) =
            if 's' = 's' ∧ ('"' :: s2).head? = some '"' ∧ acc ≠ [] then
              ofirst (m4 acc '"' ('"' :: s2).tail)
                (g1 (acc ++ ['s']) ('"' :: s2))
            else if 's' = '"' then none
            else g1 (acc ++ ['s']) ('"' :: s2) := rfl
        have hcnd : ('s' = 's' ∧ ('"' :: s2).head? = some '"' ∧ acc ≠ []) :=
          ⟨rfl, rfl, hacc⟩
        rw [hone, if_pos hcnd]
        show ofirst (m4 acc '"' s2) (g1 (acc ++ ['s']) ('"' :: s2)) = none
        rw [hm4, hext]
        rfl
    · by_cases hq : ch = '"'
      · simp only [g1, if_neg hcond, if_pos hq]
      · simp only [g1, if_neg hcond, if_neg hq]
        exact hext

theorem m2_append_of_some {res : MatchRes} :
    ∀ (x : List Char) (p : Char) (r : List Char), (∀ ch ∈ x, ch ≠ '>') →
      m2 (x.getLastD p) r = some res → m2 p (x ++ r) = some res := by
  intro x
  induction x with
  | nil => intro p r _ h; simpa using h
  | cons ch x ih =>
    intro p r hx h
    have hch : ch ≠ '>' := hx ch (by simp)
    have h2 : m2 ch (x ++ r) = some res := by
      apply ih ch r (fun a ha => hx a (by simp [ha]))
      rwa [List.getLastD_cons] at h
    rw [List.cons_append]
    simp only [m2, if_neg hch, h2, ofirst]

theorem m4_append_of_some {t : List Char} {res : MatchRes} :
    ∀ (x : List Char) (p : Char) (r : List Char), (∀ ch ∈ x, ch ≠ '>') →
      m4 t (x.getLastD p) r = some res → m4 t p (x ++ r) = some res := by
  intro x
  induction x with
  | nil => intro p r _ h; simpa using h
  | cons ch x ih =>
    intro p r hx h
    have hch : ch ≠ '>' := hx ch (by simp)
    have h2 : m4 t ch (x ++ r) = some res := by
      apply ih ch r (fun a ha => hx a (by simp [ha]))
      rwa [List.getLastD_cons] at h
    rw [List.cons_append]
    simp only [m4, if_neg hch, h2, ofirst]

/-! ### No `\bstart="` / `\bvalue="` attempt strictly inside the matched
region can succeed.  Each lemma tracks the actual character preceding the
attempt, because the `\b` test decides which occurrences of the literals
are live: the hypotheses exclude exactly the word-boundary occurrences. -/

theorem stopV_none_c_splits {c : List Char}
    (hcB : hasSubB valueLit '"' c = false) :
    ∀ x₁ x₂ (t0 : List Char), c ++ ['>'] = x₁ ++ x₂ →
      stopV t0 (x₁.getLastD '"') x₂ = none := by
  intro x₁ x₂ t0 h
  rcases split_append_cases h with ⟨y₁, hx₁, hy⟩ | ⟨z, hz, hc, hx₂⟩
  · cases y₁ with
    | nil =>
      simp only [List.nil_append] at hy
      subst hy
      exact stopV_none_head (by decide)
    | cons a y =>
      have h2 := hy
      simp only [List.cons_append, List.cons.injEq] at h2
      have hx2 : x₂ = [] := (List.append_eq_nil.mp h2.2.symm).2
      subst hx2
      exact stopV_none_of_take t0 _ (by decide)
  · subst hx₂
    by_cases hw : wordChar (x₁.getLastD '"')
    · exact stopV_none_word hw
    · refine stopV_none_of_take t0 _
        (take7_ne_pre (u := '>') ?_ hz (by simp) (by decide))
      exact hasSubB_false_split valueLit (by decide) x₁ '"' z
        (by rw [← hc]; exact hcB) (by simpa using hw)

theorem stopS_none_c_splits {c : List Char}
    (hcB : hasSubB valueLit '"' c = false) :
    ∀ x₁ x₂ (p : Char), c ++ ['>'] = x₁ ++ x₂ → stopS p x₂ = none := by
  intro x₁ x₂ p h
  unfold stopS
  split
  · rfl
  split
  · rename_i htk
    apply g1_none_splits (x₂.drop 7) '"'
    intro y₁ y₂ t0 hy
    have hx₂ : x₂ = startLit ++ x₂.drop 7 := by
      conv_lhs => rw [← List.take_append_drop 7 x₂]
      rw [htk]
    have hsplit : c ++ ['>'] = (x₁ ++ startLit ++ y₁) ++ y₂ := by
      rw [h, hx₂, hy]
      simp
    have hs := stopV_none_c_splits hcB (x₁ ++ startLit ++ y₁) y₂ t0 hsplit
    have hgl : (x₁ ++ startLit ++ y₁).getLastD '"' = y₁.getLastD '"' := by
      rw [show x₁ ++ startLit ++ y₁ =
        ((x₁ ++ ['s', 't', 'a', 'r', 't', '=']) ++ ['"']) ++ y₁ from by
          simp [startLit]]
      exact getLastD_quote_append _ _ _
    rw [hgl] at hs
    exact hs
  · rfl

theorem stopS_none_vquote {p : Char} {x c : List Char} (hq : '"' ∉ x)
    (hcB : hasSubB valueLit '"' c = false) :
    stopS p (x ++ '"' :: (c ++ ['>'])) = none := by
  unfold stopS
  split
  · rfl
  split
  · rename_i htk
    have hlen := take7_quote_pos startLit (by decide) (by decide) hq htk
    rw [drop7_quote hlen]
    exact g1_none_splits (c ++ ['>']) '"' []
      (fun y₁ y₂ t0 hy => stopV_none_c_splits hcB y₁ y₂ t0 hy)
  · rfl

theorem stopV_none_vreg {t0 : List Char} {v c y₁ z : List Char}
    (hsplit : v = y₁ ++ z) (hq : '"' ∉ z)
    (hD : hasSubB valueLit '"' (v ++ ['"']) = false ∨ '"' ∉ c) :
    stopV t0 (y₁.getLastD '"') (z ++ '"' :: (c ++ ['>'])) = none := by
  by_cases hw : wordChar (y₁.getLastD '"')
  · exact stopV_none_word hw
  · unfold stopV
    rw [if_neg hw]
    split
    · rename_i htk
      have hlen := take7_quote_pos valueLit (by decide) (by decide) hq htk
      rcases hD with hvf | hcq
      · exfalso
        have h7 : (z ++ '"' :: (c ++ ['>'])).take 7 = z ++ ['"'] := by
          rw [show z ++ '"' :: (c ++ ['>']) = (z ++ ['"']) ++ (c ++ ['>'])
            from by simp]
          exact List.take_left' (by simp [hlen])
        rw [h7] at htk
        have hocc : hasSubB valueLit '"' (y₁ ++ (z ++ ['"'])) = false := by
          rw [show y₁ ++ (z ++ ['"']) = v ++ ['"'] from by simp [hsplit]]
          exact hvf
        have hne := hasSubB_false_split valueLit (by decide) y₁ '"'
          (z ++ ['"']) hocc (by simpa using hw)
        apply hne
        have hlen2 : (z ++ ['"']).length = valueLit.length := by
          simp [hlen, valueLit]
        rw [← hlen2, List.take_length]
        exact htk
      · rw [drop7_quote hlen]
        refine g2_noquote _ t0 [] (fun hm => ?_)
        rcases List.mem_append.mp hm with hm | hm
        · exact hcq hm
        · simp at hm
    · rfl

theorem stopV_none_m4 {t0 v c : List Char} (hv : '"' ∉ v)
    (hD : hasSubB valueLit '"' (v ++ ['"']) = false ∨ '"' ∉ c)
    (hcB : hasSubB valueLit '"' c = false) :
    ∀ x₁ x₂, ['a', 'l', 'u', 'e', '=', '"'] ++ (v ++ '"' :: (c ++ ['>'])) =
        x₁ ++ x₂ →
      stopV t0 (x₁.getLastD 'v') x₂ = none := by
  intro x₁ x₂ h
  rcases split_append_cases h with ⟨y₁, hx₁, hy⟩ | ⟨z, hz, hA, hx₂⟩
  · rcases split_append_cases hy with ⟨w₁, hy₁, hw⟩ | ⟨z, hz2, hv2, hx₂⟩
    · cases w₁ with
      | nil =>
        rw [List.nil_append] at hw
        subst hw
        exact stopV_none_head (by decide)
      | cons c2 w₂ =>
        simp only [List.cons_append, List.cons.injEq] at hw
        obtain ⟨hc2, hrest⟩ := hw
        subst hc2
        subst hy₁
        have hgl : x₁.getLastD 'v' = w₂.getLastD '"' := by
          rw [hx₁, show ['a', 'l', 'u', 'e', '=', '"'] ++ (v ++ '"' :: w₂) =
            (((['a', 'l', 'u', 'e', '=', '"'] : List Char) ++ v) ++ ['"']) ++
              w₂ from by simp]
          exact getLastD_quote_append _ _ _
        rw [hgl]
        exact stopV_none_c_splits hcB w₂ x₂ t0 hrest
    · subst hx₂
      have hgl : x₁.getLastD 'v' = y₁.getLastD '"' := by
        rw [hx₁, show (['a', 'l', 'u', 'e', '=', '"'] : List Char) =
          ['a', 'l', 'u', 'e', '='] ++ ['"'] from rfl, List.append_assoc]
        rw [show ['a', 'l', 'u', 'e', '='] ++ (['"'] ++ y₁) =
          (['a', 'l', 'u', 'e', '='] ++ ['"']) ++ y₁ from by simp]
        exact getLastD_quote_append _ _ _
      rw [hgl]
      refine stopV_none_vreg hv2 (fun hm => hv ?_) hD
      rw [hv2]
      exact List.mem_append.mpr (Or.inr hm)
  · obtain ⟨ch, z', rfl⟩ : ∃ ch z', z = ch :: z' := by
      cases z with
      | nil => exact absurd rfl hz
      | cons a y => exact ⟨a, y, rfl⟩
    have hm : ch ∈ (['a', 'l', 'u', 'e', '=', '"'] : List Char) := by
      rw [hA]
      exact List.mem_append.mpr (Or.inr (by simp))
    have hch : ch ≠ 'v' := by
      intro hh
      subst hh
      revert hm
      decide
    subst hx₂
    rw [List.cons_append]
    exact stopV_none_head hch

theorem stopS_none_m2 {t b v c : List Char}
    (ht : '"' ∉ t) (hbB : hasSubB startLit '"' b = false)
    (hv : '"' ∉ v) (hcB : hasSubB valueLit '"' c = false) :
    ∀ x₁ x₂, ['t', 'a', 'r', 't', '=', '"'] ++ (t ++ 's' :: '"' ::
        (b ++ (valueLit ++ (v ++ '"' :: (c ++ ['>']))))) = x₁ ++ x₂ →
      stopS (x₁.getLastD 's') x₂ = none := by
  intro x₁ x₂ h
  rcases split_append_cases h with ⟨y₁, hx₁, hy⟩ | ⟨z, hz, hA, hx₂⟩
  · rcases split_append_cases hy with ⟨w₁, hy₁, hw⟩ | ⟨z, hz2, ht2, hx₂⟩
    · cases w₁ with
      | nil =>
        rw [List.nil_append] at hw
        subst hw
        refine stopS_none_of_take _ (take7_ne_at (i := 1) (a := '"')
          (b := 't') (by norm_num) ?_ (by decide) (by decide))
        simp
      | cons c1 w₂ =>
        simp only [List.cons_append, List.cons.injEq] at hw
        obtain ⟨hc1, hw⟩ := hw
        subst hc1
        cases w₂ with
        | nil =>
          rw [List.nil_append] at hw
          subst hw
          exact stopS_none_head (by decide)
        | cons c2 w₃ =>
          simp only [List.cons_append, List.cons.injEq] at hw
          obtain ⟨hc2, hw⟩ := hw
          subst hc2
          rcases split_append_cases hw with ⟨u₁, hw₃, hu⟩ |
            ⟨z, hz3, hb2, hx₂⟩
          · rcases split_append_cases hu with ⟨q₁, hu₁, hq⟩ |
              ⟨z, hz4, hvl, hx₂⟩
            · rcases split_append_cases hq with ⟨r₁, hq₁, hr⟩ |
                ⟨z, hz5, hv2, hx₂⟩
              · cases r₁ with
                | nil =>
                  rw [List.nil_append] at hr
                  subst hr
                  exact stopS_none_head (by decide)
                | cons c3 r₂ =>
                  simp only [List.cons_append, List.cons.injEq] at hr
                  exact stopS_none_c_splits hcB r₂ x₂ _ hr.2
              · subst hx₂
                refine stopS_none_vquote (fun hm => hv ?_) hcB
                rw [hv2]
                exact List.mem_append.mpr (Or.inr hm)
            · obtain ⟨ch, z', rfl⟩ : ∃ ch z', z = ch :: z' := by
                cases z with
                | nil => exact absurd rfl hz4
                | cons a y => exact ⟨a, y, rfl⟩
              have hm : ch ∈ valueLit := by
                rw [hvl]
                exact List.mem_append.mpr (Or.inr (by simp))
              have hch : ch ≠ 's' := by
                intro hh
                subst hh
                revert hm
                decide
              subst hx₂
              rw [List.cons_append]
              exact stopS_none_head hch
          · have hgl : x₁.getLastD 's' = w₃.getLastD '"' := by
              rw [hx₁, hy₁]
              rw [show ['t', 'a', 'r', 't', '=', '"'] ++
                  (t ++ 's' :: '"' :: w₃) =
                (((['t', 'a', 'r', 't', '=', '"'] : List Char) ++ t ++
                  ['s']) ++ ['"']) ++ w₃ from by simp]
              exact getLastD_quote_append _ _ _
            rw [hgl]
            by_cases hwp : wordChar (w₃.getLastD '"')
            · exact stopS_none_word hwp
            · subst hx₂
              refine stopS_none_of_take _
                (take7_ne_pre (u := 'v') ?_ hz3 ?_ (by decide))
              · exact hasSubB_false_split startLit (by decide) w₃ '"' z
                  (by rw [← hb2]; exact hbB) (by simpa using hwp)
              · simp [valueLit]
    · subst hx₂
      refine stopS_none_of_take _ (take7_ne_mid (u := 's') (by decide)
        (fun hm => ht ?_) hz2 ?_ (by decide))
      · rw [ht2]
        exact List.mem_append.mpr (Or.inr hm)
      · simp
  · obtain ⟨ch, z', rfl⟩ : ∃ ch z', z = ch :: z' := by
      cases z with
      | nil => exact absurd rfl hz
      | cons a y => exact ⟨a, y, rfl⟩
    have hm : ch ∈ (['t', 'a', 'r', 't', '=', '"'] : List Char) := by
      rw [hA]
      exact List.mem_append.mpr (Or.inr (by simp))
    have hch : ch ≠ 's' := by
      intro hh
      subst hh
      revert hm
      decide
    subst hx₂
    rw [List.cons_append]
    exact stopS_none_head hch

/-! ### Successful run of the pattern over a well-formed tag -/

theorem m6_run {t acc : List Char} : ∀ c : List Char, '>' ∉ c →
    m6 t acc (c ++ ['>']) = some (t, acc, []) := by
  intro c
  induction c with
  | nil => intro _; simp [m6]
  | cons ch c ih =>
    intro h
    have hch : ch ≠ '>' := fun hc => h (by simp [hc])
    rw [List.cons_append]
    simp only [m6, if_neg hch]
    exact ih (fun hm => h (List.mem_cons_of_mem _ hm))

theorem g2_run {t : List Char} : ∀ (v acc c : List Char), '"' ∉ v → '>' ∉ c →
    g2 t acc (v ++ '"' :: (c ++ ['>'])) = some (t, acc ++ v, []) := by
  intro v
  induction v with
  | nil =>
    intro acc c _ hc
    simp only [List.nil_append, g2, if_pos rfl, List.append_nil]
    exact m6_run c hc
  | cons ch v ih =>
    intro acc c hv hc
    have hch : ch ≠ '"' := fun h => hv (by simp [h])
    rw [List.cons_append]
    simp only [g2, if_neg hch]
    rw [ih (acc ++ [ch]) c (fun hm => hv (List.mem_cons_of_mem _ hm)) hc]
    simp

theorem m4_run {t : List Char} : ∀ (b : List Char) (p : Char) (v c : List Char),
    '>' ∉ b → wordChar (b.getLastD p) = false →
    '"' ∉ v →
    (hasSubB valueLit '"' (v ++ ['"']) = false ∨ '"' ∉ c) →
    hasSubB valueLit '"' c = false → '>' ∉ c →
    m4 t p (b ++ (valueLit ++ (v ++ '"' :: (c ++ ['>'])))) = some (t, v, []) := by
  intro b p v c hb hlast hv hD hcB hcg
  apply m4_append_of_some b p _ (fun a ha hgt => hb (hgt ▸ ha))
  have hstop : stopV t (b.getLastD p)
      (valueLit ++ (v ++ '"' :: (c ++ ['>'])))  = some (t, v, []) := by
    unfold stopV
    rw [if_neg (by simpa [List.getLastD_eq_getLast?] using hlast)]
    rw [List.take_left' (by decide : valueLit.length = 7),
      List.drop_left' (by decide : valueLit.length = 7)]
    rw [if_pos rfl]
    simpa using g2_run v [] c hv hcg
  have hdeep : m4 t 'v'
      (['a', 'l', 'u', 'e', '=', '"'] ++ (v ++ '"' :: (c ++ ['>']))) = none :=
    m4_none_splits _ t 'v'
      (fun x₁ x₂ hx => stopV_none_m4 hv hD hcB x₁ x₂ hx)
  have hone : m4 t (b.getLastD p) (valueLit ++ (v ++ '"' :: (c ++ ['>']))) =
      ofirst
        (m4 t 'v'
          (['a', 'l', 'u', 'e', '=', '"'] ++ (v ++ '"' :: (c ++ ['>']))))
        (stopV t (b.getLastD p)
          (valueLit ++ (v ++ '"' :: (c ++ ['>'])))) := rfl
  rw [hone, hdeep, hstop]
  rfl

theorem g1_run : ∀ (x acc r : List Char) (res : MatchRes), '"' ∉ x →
    acc ++ x ≠ [] → m4 (acc ++ x) '"' r = some res →
    g1 acc (x ++ 's' :: '"' :: r) = some res := by
  intro x
  induction x with
  | nil =>
    intro acc r res _ hne h
    rw [List.append_nil] at h hne
    simp only [List.nil_append, g1]
    split
    · simp only [List.tail_cons, h, ofirst]
    · rename_i hcond
      exact absurd ⟨by simp, by simp, hne⟩ hcond
  | cons ch x ih =>
    intro acc r res hx hne h
    have hch : ch ≠ '"' := fun hc => hx (by simp [hc])
    have hcond : ¬(ch = 's' ∧ (x ++ 's' :: '"' :: r).head? = some '"' ∧
        acc ≠ []) := by
      rintro ⟨-, hh, -⟩
      cases x with
      | nil => simp at hh
      | cons a x =>
        simp only [List.cons_append, List.head?_cons, Option.some.injEq] at hh
        exact hx (by simp [hh])
    rw [List.cons_append]
    simp only [g1, if_neg hcond, if_neg hch]
    apply ih (acc ++ [ch]) r res (fun hm => hx (List.mem_cons_of_mem _ hm))
      (by simp)
    simpa [List.append_assoc] using h

/-- The shape of a well-formed chapter-marker opening tag with the `start`
attribute written before the `value` attribute: `a` the text between the
tag name and `start="` (other attributes), `t` the time text (the `s`
suffix and closing quote follow), `b` the text between the two
attributes, `v` the label text, `c` the text before the closing `>`. -/
def chapTag (a t b v c : List Char) : List Char :=
  chapLit ++ (a ++ (startLit ++ (t ++ 's' :: '"' ::
    (b ++ (valueLit ++ (v ++ '"' :: (c ++ ['>'])))))))

theorem m2_start_run {t b v c : List Char} {P : Char}
    (hP : wordChar P = false)
    (ht0 : t ≠ []) (htq : '"' ∉ t)
    (hbG : '>' ∉ b) (hbB : hasSubB startLit '"' b = false)
    (hbl : wordChar (b.getLastD '"') = false)
    (hvq : '"' ∉ v)
    (hD : hasSubB valueLit '"' (v ++ ['"']) = false ∨ '"' ∉ c)
    (hcB : hasSubB valueLit '"' c = false) (hcG : '>' ∉ c) :
    m2 P (startLit ++ (t ++ 's' :: '"' ::
      (b ++ (valueLit ++ (v ++ '"' :: (c ++ ['>'])))))) = some (t, v, []) := by
  have hstop : stopS P (startLit ++ (t ++ 's' :: '"' ::
      (b ++ (valueLit ++ (v ++ '"' :: (c ++ ['>'])))))) = some (t, v, []) := by
    unfold stopS
    rw [if_neg (by simp [hP])]
    rw [List.take_left' (by decide : startLit.length = 7),
      List.drop_left' (by decide : startLit.length = 7)]
    rw [if_pos rfl]
    apply g1_run t [] _ _ htq (by simpa using ht0)
    simpa using m4_run b '"' v c hbG hbl hvq hD hcB hcG
  have hdeep : m2 's' (['t', 'a', 'r', 't', '=', '"'] ++ (t ++ 's' :: '"' ::
      (b ++ (valueLit ++ (v ++ '"' :: (c ++ ['>'])))))) = none :=
    m2_none_splits _ 's'
      (fun x₁ x₂ hx => stopS_none_m2 htq hbB hvq hcB x₁ x₂ hx)
  have hone : m2 P (startLit ++ (t ++ 's' :: '"' ::
      (b ++ (valueLit ++ (v ++ '"' :: (c ++ ['>'])))))) =
      ofirst
        (m2 's' (['t', 'a', 'r', 't', '=', '"'] ++ (t ++ 's' :: '"' ::
          (b ++ (valueLit ++ (v ++ '"' :: (c ++ ['>'])))))))
        (stopS P (startLit ++ (t ++ 's' :: '"' ::
          (b ++ (valueLit ++ (v ++ '"' :: (c ++ ['>'])))))))  := rfl
  rw [hone, hdeep, hstop]
  rfl

theorem matchAt_chapTag {a t b v c : List Char}
    (ha0 : a ≠ []) (haG : '>' ∉ a)
    (hah : wordChar (a.headD ' ') = false)
    (hal : wordChar (a.getLastD ' ') = false)
    (ht0 : t ≠ []) (htq : '"' ∉ t)
    (hbG : '>' ∉ b) (hbB : hasSubB startLit '"' b = false)
    (hbl : wordChar (b.getLastD '"') = false)
    (hvq : '"' ∉ v)
    (hD : hasSubB valueLit '"' (v ++ ['"']) = false ∨ '"' ∉ c)
    (hcB : hasSubB valueLit '"' c = false) (hcG : '>' ∉ c) :
    matchAt (chapTag a t b v c) = some (t, v, []) := by
  obtain ⟨ah, a', rfl⟩ : ∃ ah a', a = ah :: a' := by
    cases a with
    | nil => exact absurd rfl ha0
    | cons x y => exact ⟨x, y, rfl⟩
  have hahw : wordChar ah = false := by simpa using hah
  have htake : (chapTag (ah :: a') t b v c).take 15 = chapLit := by
    unfold chapTag
    exact List.take_left' (by decide)
  have hdrop : (chapTag (ah :: a') t b v c).drop 15 =
      ah :: (a' ++ (startLit ++ (t ++ 's' :: '"' ::
        (b ++ (valueLit ++ (v ++ '"' :: (c ++ ['>']))))))) := by
    unfold chapTag
    rw [List.drop_left' (by decide : chapLit.length = 15)]
    simp
  unfold matchAt
  rw [htake, if_pos rfl, hdrop]
  show (if wordChar ah = true then none
    else m2 'r' (ah :: (a' ++ (startLit ++ (t ++ 's' :: '"' ::
      (b ++ (valueLit ++ (v ++ '"' :: (c ++ ['>']))))))))) = some (t, v, [])
  rw [hahw]
  simp only [Bool.false_eq_true, if_false]
  rw [show (ah :: (a' ++ (startLit ++ (t ++ 's' :: '"' ::
      (b ++ (valueLit ++ (v ++ '"' :: (c ++ ['>'])))))))) =
    ((ah :: a') ++ (startLit ++ (t ++ 's' :: '"' ::
      (b ++ (valueLit ++ (v ++ '"' :: (c ++ ['>'])))))))
    from by simp]
  apply m2_append_of_some (ah :: a') 'r' _ (fun ch hm hgt => haG (hgt ▸ hm))
  apply m2_start_run _ ht0 htq hbG hbB hbl hvq hD hcB hcG
  rw [List.getLastD_cons]
  rw [List.getLastD_cons] at hal
  exact hal

/-! ### Small lemmas about split and the match guard -/

theorem matchAt_none_take {s : List Char} (h : s.take 15 ≠ chapLit) :
    matchAt s = none := by
  simp [matchAt, h]

theorem pysplit_not_mem {sep : Char} :
    ∀ s : List Char, sep ∉ s → pysplit sep s = [s] := by
  intro s
  induction s with
  | nil => intro _; rfl
  | cons ch s ih =>
    intro h
    have hch : ch ≠ sep := fun hc => h (by simp [hc])
    have hs : sep ∉ s := fun hm => h (List.mem_cons_of_mem _ hm)
    rw [pysplit, if_neg hch, ih hs]

theorem pysplit_append {sep : Char} {B : List Char} :
    ∀ A : List Char, sep ∉ A →
    pysplit sep (A ++ sep :: B) = A :: pysplit sep B := by
  intro A
  induction A with
  | nil => intro _; rw [List.nil_append, pysplit, if_pos rfl]
  | cons ch A ih =>
    intro h
    have hch : ch ≠ sep := fun hc => h (by simp [hc])
    have hA : sep ∉ A := fun hm => h (List.mem_cons_of_mem _ hm)
    rw [List.cons_append, pysplit, if_neg hch, ih hA]

theorem takeWhile_eq_self {p : Char → Bool} :
    ∀ l : List Char, (∀ a ∈ l, p a) → l.takeWhile p = l := by
  intro l
  induction l with
  | nil => intro _; rfl
  | cons a l ih =>
    intro h
    rw [List.takeWhile_cons, if_pos (h a (by simp))]
    rw [ih (fun b hb => h b (List.mem_cons_of_mem _ hb))]

theorem dropWhile_eq_nil {p : Char → Bool} :
    ∀ l : List Char, (∀ a ∈ l, p a) → l.dropWhile p = [] := by
  intro l
  induction l with
  | nil => intro _; rfl
  | cons a l ih =>
    intro h
    rw [List.dropWhile_cons, if_pos (h a (by simp))]
    exact ih (fun b hb => h b (List.mem_cons_of_mem _ hb))

/-- Evaluation of `pyfloat` on a text that strips to a nonempty run of
decimal digits: the parsed value is the digits' numeric value. -/
theorem pyfloat_of_digits (s ds : List Char) (hstrip : pystrip s = ds)
    (hne : ds ≠ []) (hdig : ∀ ch ∈ ds, ch.isDigit) :
    pyfloat s = some ((digVal ds : ℕ) : ℚ) := by
  obtain ⟨dh, dt, rfl⟩ : ∃ dh dt, ds = dh :: dt := by
    cases ds with
    | nil => exact absurd rfl hne
    | cons x y => exact ⟨x, y, rfl⟩
  have hd : dh.isDigit := hdig dh (by simp)
  have hdm : dh ≠ '-' := by
    intro h; rw [h] at hd; exact absurd hd (by decide)
  have hdp : dh ≠ '+' := by
    intro h; rw [h] at hd; exact absurd hd (by decide)
  have hsign : ¬(dh = '+' ∨ dh = '-') := by
    rintro (h | h)
    · exact hdp h
    · exact hdm h
  have hdot : ¬(([] : List Char).head? = some '.') := by simp
  simp only [pyfloat, hstrip, List.head?_cons, Option.some.injEq]
  rw [if_neg hdm, if_neg hsign]
  rw [takeWhile_eq_self _ hdig, dropWhile_eq_nil _ hdig]
  rw [if_neg hdot, if_neg hdot]
  rw [if_neg (show ¬(dh :: dt = [] ∧ ([] : List Char) = []) from by simp)]
  rw [if_pos rfl]
  rw [show digVal ([] : List Char) = 0 from rfl]
  norm_num

/-- Evaluation of `fraction_to_float` on a slash-free text that strips to
a nonempty run of decimal digits. -/
theorem fraction_of_digits (s ds : List Char) (hs : '/' ∉ s)
    (hstrip : pystrip s = ds) (hne : ds ≠ [])
    (hdig : ∀ ch ∈ ds, ch.isDigit) :
    fraction_to_float s = ((digVal ds : ℕ) : ℚ) := by
  unfold fraction_to_float
  rw [if_neg hs, pyfloat_of_digits s ds hstrip hne hdig, Option.getD_some]

/-- Filesystem fixture: a bundle directory holding a single
`Show.fcpxml` entry and no `Info.fcpxml`. -/
def exFS : FS where
  isFile := fun q => q == ("bundle/Show.fcpxml").toList
  isDir := fun q => q == ("bundle").toList
  listdir := fun _ => [("Show.fcpxml").toList]
  readFile := fun _ => []

/-- Filesystem fixture: nothing exists. -/
def emptyFS : FS where
  isFile := fun _ => false
  isDir := fun _ => false
  listdir := fun _ => []
  readFile := fun _ => []

/-! ## The claims -/

/-- Claim C1, counterexample: a chapter-marker opening tag carrying both a
well-formed `start` attribute (with the `s` suffix) and a `value`
attribute, but with `value` written before `start`, is not recognized —
the extractor emits no line for it, refuting the claim that attribute
order does not matter. -/
theorem C1_counterexample :
    extract_markers (("<chapter-marker value=\"X\" start=\"10s\">").toList) =
      [] := by
  rw [extract_markers_eq, finditer_eq_nil]
  · rfl
  · decide

/-- Claim C1 (amended): for every chapter-marker opening tag in which the
`start` attribute appears before the `value` attribute, the extractor
recognizes the tag and emits its formatted line — with arbitrary further
attribute text around the two attributes, quoted attributes included,
subject only to the scanning shape: no `>` in the skipped regions,
non-word boundary characters around the literals, the time text nonempty
and quote-free, the label free to span multiple lines, and no later
word-boundary `start="` occurrence between the two attributes and no
later word-boundary `value="` occurrence afterwards (reachable through a
quote in the trailing region) — those the greedy scan would prefer to
the captured pair.  With `value` before `start` the tag is not matched
(see the counterexample). -/
theorem C1_start_before_value (a t b v c : List Char)
    (ha0 : a ≠ []) (haG : '>' ∉ a)
    (hah : wordChar (a.headD ' ') = false)
    (hal : wordChar (a.getLastD ' ') = false)
    (ht0 : t ≠ []) (htq : '"' ∉ t)
    (hbG : '>' ∉ b) (hbB : hasSubB startLit '"' b = false)
    (hbl : wordChar (b.getLastD '"') = false)
    (hvq : '"' ∉ v)
    (hD : hasSubB valueLit '"' (v ++ ['"']) = false ∨ '"' ∉ c)
    (hcB : hasSubB valueLit '"' c = false) (hcG : '>' ∉ c) :
    extract_markers (chapTag a t b v c) =
      [pystrip (format_time (fraction_to_float (pystrip t)) ++
        ' ' :: pystrip v)] := by
  have hm := matchAt_chapTag ha0 haG hah hal ht0 htq hbG hbB hbl hvq hD
    hcB hcG
  rw [extract_markers_eq, finditer_match hm, finditer_nil]
  simp [markerLines, markerLoop]

theorem C1_start_before_value_witness :
    extract_markers (chapTag ((" ").toList) (("65").toList)
      ((" duration=\"5s\" ").toList) (("Verse 1\nB").toList)
      ((" posterOffset=\"1s\"").toList)) =
      [("01:05 Verse 1\nB").toList] := by
  have h65 : fraction_to_float (("65").toList) = 65 := by
    rw [fraction_of_digits (("65").toList) (("65").toList) (by decide)
      (by decide) (by decide) (by decide)]
    rw [show digVal (("65").toList) = 65 from by decide]
    norm_num
  rw [C1_start_before_value _ _ _ _ _ (by decide) (by decide) (by decide)
    (by decide) (by decide) (by decide) (by decide) (by decide) (by decide)
    (by decide) (Or.inl (by decide)) (by decide) (by decide)]
  rw [show pystrip (("65").toList) = ("65").toList from by decide, h65]
  rw [show format_time 65 = ("01:05").toList from by decide]
  decide

/-- Claim C2: when two matches carry the identical stripped label and
different parsed start times, the later duplicate is discarded entirely
(removing it does not change the output), exactly one deduplicated entry
carries that label, and it is the first-encountered match — so the line
for the label is formatted from the first match's start time. -/
theorem C2_dedup_first_wins
    (pre mid post : List (List Char × List Char))
    (m₁ m₂ : List Char × List Char)
    (hlab : stripLabel m₂ = stripLabel m₁)
    (hsec : fraction_to_float (pystrip m₂.1) ≠
      fraction_to_float (pystrip m₁.1)) :
    markerLines (pre ++ m₁ :: (mid ++ m₂ :: post)) =
        markerLines (pre ++ m₁ :: (mid ++ post)) ∧
      ∃ m, (pre ++ m₁ :: (mid ++ m₂ :: post)).find?
          (fun e => stripLabel e = stripLabel m₁) = some m ∧
        (dedupFirst (pre ++ m₁ :: (mid ++ m₂ :: post))).filter
          (fun e => stripLabel e = stripLabel m₁) = [m] ∧
        markerLines (pre ++ m₁ :: (mid ++ m₂ :: post)) =
          (dedupFirst (pre ++ m₁ :: (mid ++ m₂ :: post))).map fmtLine := by
  have hdrop : dedupFirst (pre ++ m₁ :: (mid ++ m₂ :: post)) =
      dedupFirst (pre ++ m₁ :: (mid ++ post)) := by
    unfold dedupFirst
    have h := dedupFirstAux_drop (pre ++ m₁ :: mid) [] m₂ post
      (Or.inr ⟨m₁, by simp, hlab.symm⟩)
    simpa [List.append_assoc] using h
  constructor
  · rw [markerLines_eq, markerLines_eq, hdrop]
  · have hex : (List.find? (fun e => stripLabel e = stripLabel m₁)
        (pre ++ m₁ :: (mid ++ m₂ :: post))).isSome := by
      rw [List.find?_isSome]
      exact ⟨m₁, by simp, by simp⟩
    obtain ⟨m, hm⟩ := Option.isSome_iff_exists.mp hex
    refine ⟨m, hm, ?_, markerLines_eq _⟩
    have h := dedupFirstAux_filter_first (pre ++ m₁ :: (mid ++ m₂ :: post))
      [] (stripLabel m₁) (by simp)
    rw [dedupFirst, h, hm]

theorem C2_dedup_first_wins_witness :
    markerLines [(("10").toList, ("X").toList),
        (("99").toList, ("X").toList)] =
        markerLines [(("10").toList, ("X").toList)] ∧
      ∃ m, ([(("10").toList, ("X").toList),
          (("99").toList, ("X").toList)]).find?
          (fun e => stripLabel e =
            stripLabel (("10").toList, ("X").toList)) = some m ∧
        (dedupFirst [(("10").toList, ("X").toList),
            (("99").toList, ("X").toList)]).filter
          (fun e => stripLabel e =
            stripLabel (("10").toList, ("X").toList)) = [m] ∧
        markerLines [(("10").toList, ("X").toList),
            (("99").toList, ("X").toList)] =
          (dedupFirst [(("10").toList, ("X").toList),
              (("99").toList, ("X").toList)]).map fmtLine := by
  have e10 : fraction_to_float (("10").toList) = 10 := by
    rw [fraction_of_digits (("10").toList) (("10").toList) (by decide)
      (by decide) (by decide) (by decide)]
    rw [show digVal (("10").toList) = 10 from by decide]
    norm_num
  have e99 : fraction_to_float (("99").toList) = 99 := by
    rw [fraction_of_digits (("99").toList) (("99").toList) (by decide)
      (by decide) (by decide) (by decide)]
    rw [show digVal (("99").toList) = 99 from by decide]
    norm_num
  refine C2_dedup_first_wins [] [] [] (("10").toList, ("X").toList)
    (("99").toList, ("X").toList) (by decide) ?_
  rw [show pystrip ((("99").toList, ("X").toList)).1 = ("99").toList
    from by decide]
  rw [show pystrip ((("10").toList, ("X").toList)).1 = ("10").toList
    from by decide]
  rw [e10, e99]
  norm_num

/-- Claim C3: the extraction output is the formatted image of the
first-occurrence deduplicated match list; no two retained entries share a
stripped label; the number of retained entries equals the number of
distinct stripped labels among all matches; the retained labels appear in
first-occurrence order; and an input with zero matches yields the empty
sequence. -/
theorem C3_extraction_invariants (content : List Char) :
    extract_markers content = (dedupFirst (finditer content)).map fmtLine ∧
      ((dedupFirst (finditer content)).map stripLabel).Nodup ∧
      (dedupFirst (finditer content)).length =
        ((finditer content).map stripLabel).toFinset.card ∧
      (dedupFirst (finditer content)).map stripLabel =
        keepFirst ((finditer content).map stripLabel) ∧
      (finditer content = [] → extract_markers content = []) := by
  refine ⟨?_, ?_, ?_, ?_, ?_⟩
  · rw [extract_markers_eq, markerLines_eq]
  · rw [dedupFirst, dedupFirstAux_map_label]
    exact keepFirstAux_nodup _ _
  · have h1 : (dedupFirst (finditer content)).length =
        ((dedupFirst (finditer content)).map stripLabel).length := by simp
    rw [h1, dedupFirst, dedupFirstAux_map_label, keepFirstAux_length]
    simp
  · rw [dedupFirst, dedupFirstAux_map_label]
    rfl
  · intro h
    rw [extract_markers_eq, h]
    rfl

theorem C3_extraction_invariants_witness : extract_markers [] = [] :=
  (C3_extraction_invariants []).2.2.2.2 finditer_nil

/-- Claim C4: `resolve_input_path` returns a regular-file path unchanged;
for a directory it returns the contained `Info.fcpxml` when that is a
file, else the first listed entry whose lowered name ends in `.fcpxml`,
else an error; and a path that is neither file nor directory is an
error. -/
theorem C4_resolve_input_path (fs : FS) (p : List Char) :
    (¬fs.isDir p = true → fs.isFile p = true →
        resolve_input_path fs p = .ok p) ∧
      (fs.isDir p = true →
        fs.isFile (joinPath p (("Info.fcpxml").toList)) = true →
        resolve_input_path fs p = .ok (joinPath p (("Info.fcpxml").toList))) ∧
      (fs.isDir p = true →
        ¬fs.isFile (joinPath p (("Info.fcpxml").toList)) = true →
        ∀ e, (fs.listdir p).find? endsFcpxml = some e →
        resolve_input_path fs p = .ok (joinPath p e)) ∧
      (fs.isDir p = true →
        ¬fs.isFile (joinPath p (("Info.fcpxml").toList)) = true →
        (fs.listdir p).find? endsFcpxml = none →
        ∃ msg, resolve_input_path fs p = .error msg) ∧
      (¬fs.isDir p = true → ¬fs.isFile p = true →
        ∃ msg, resolve_input_path fs p = .error msg) := by
  refine ⟨?_, ?_, ?_, ?_, ?_⟩
  · intro h1 h2
    unfold resolve_input_path
    rw [if_neg h1, if_pos h2]
  · intro h1 h2
    unfold resolve_input_path
    rw [if_pos h1, if_pos h2]
  · intro h1 h2 e he
    unfold resolve_input_path
    rw [if_pos h1, if_neg h2, he]
  · intro h1 h2 he
    unfold resolve_input_path
    rw [if_pos h1, if_neg h2, he]
    exact ⟨_, rfl⟩
  · intro h1 h2
    unfold resolve_input_path
    rw [if_neg h1, if_neg h2]
    exact ⟨_, rfl⟩

theorem C4_resolve_input_path_witness :
    resolve_input_path exFS (("bundle").toList) =
      .ok (("bundle/Show.fcpxml").toList) :=
  ((C4_resolve_input_path exFS (("bundle").toList)).2.2.1 (by decide)
    (by decide) (("Show.fcpxml").toList) (by decide)).trans (by rfl)

/-- Claim C5: for non-negative seconds the formatter returns the floor's
quotient and remainder by 60, each zero-padded to width 2 and joined by a
colon; in particular 185.7 seconds formats as 03:05. -/
theorem C5_format_time (q : ℚ) (h : 0 ≤ q) :
    format_time q = pad02 (((⌊q⌋.toNat / 60 : ℕ) : ℤ)) ++
        ':' :: pad02 (((⌊q⌋.toNat % 60 : ℕ) : ℤ)) ∧
      format_time ((1857 : ℚ) / 10) = ("03:05").toList := by
  constructor
  · have h0 : 0 ≤ ⌊q⌋ := Int.floor_nonneg.mpr h
    have htr : pytrunc q = ⌊q⌋ := by
      unfold pytrunc
      rw [if_neg (not_lt.mpr h)]
    have hdiv : Int.fdiv ⌊q⌋ 60 = ((⌊q⌋.toNat / 60 : ℕ) : ℤ) := by
      conv_lhs => rw [← Int.toNat_of_nonneg h0,
        show (60 : ℤ) = ((60 : ℕ) : ℤ) from rfl]
      rw [← Int.ofNat_fdiv]
    have hmod : Int.fmod ⌊q⌋ 60 = ((⌊q⌋.toNat % 60 : ℕ) : ℤ) := by
      conv_lhs => rw [← Int.toNat_of_nonneg h0,
        show (60 : ℤ) = ((60 : ℕ) : ℤ) from rfl]
      rw [← Int.ofNat_fmod]
    unfold format_time
    rw [htr, hdiv, hmod]
  · have hfl : (⌊(1857 : ℚ) / 10⌋ : ℤ) = 185 := by norm_num
    have htr : pytrunc ((1857 : ℚ) / 10) = 185 := by
      unfold pytrunc
      rw [if_neg (by norm_num), hfl]
    unfold format_time
    rw [htr]
    decide

theorem C5_format_time_witness :
    format_time ((1857 : ℚ) / 10) = ("03:05").toList :=
  (C5_format_time ((1857 : ℚ) / 10) (by norm_num)).2

/-- Claim C6: a start text of the shape `numerator/denominator` parses to
the rational quotient of its two parts; in particular `2702600/30000`
yields about 90.09 seconds and formats as 01:30. -/
theorem C6_rational_start :
    (∀ (A B : List Char) (a b : ℚ), '/' ∉ A → '/' ∉ B →
        pyfloat A = some a → pyfloat B = some b → b ≠ 0 →
        fraction_to_float (A ++ '/' :: B) = a / b) ∧
      fraction_to_float (("2702600/30000").toList) = 2702600 / 30000 ∧
      |fraction_to_float (("2702600/30000").toList) - 9009 / 100| <
        1 / 100 ∧
      format_time (fraction_to_float (("2702600/30000").toList)) =
        ("01:30").toList := by
  have hpart1 : ∀ (A B : List Char) (a b : ℚ), '/' ∉ A → '/' ∉ B →
      pyfloat A = some a → pyfloat B = some b → b ≠ 0 →
      fraction_to_float (A ++ '/' :: B) = a / b := by
    intro A B a b hA hB ha hb hb0
    unfold fraction_to_float
    rw [if_pos (by simp : '/' ∈ A ++ '/' :: B)]
    rw [pysplit_append A hA, pysplit_not_mem B hB]
    rw [show fracOfParts [A, B] = divOrZero (pyfloat A) (pyfloat B) from rfl]
    rw [ha, hb]
    rw [show divOrZero (some a) (some b) = if b = 0 then 0 else a / b
      from rfl]
    rw [if_neg hb0]
  have ha : pyfloat (("2702600").toList) = some 2702600 := by
    rw [pyfloat_of_digits (("2702600").toList) (("2702600").toList)
      (by decide) (by decide) (by decide)]
    rw [show digVal (("2702600").toList) = 2702600 from by decide]
    norm_num
  have hb : pyfloat (("30000").toList) = some 30000 := by
    rw [pyfloat_of_digits (("30000").toList) (("30000").toList)
      (by decide) (by decide) (by decide)]
    rw [show digVal (("30000").toList) = 30000 from by decide]
    norm_num
  have h2 : fraction_to_float (("2702600/30000").toList) =
      2702600 / 30000 := by
    rw [show ("2702600/30000").toList =
      ("2702600").toList ++ '/' :: ("30000").toList from by decide]
    exact hpart1 _ _ _ _ (by decide) (by decide) ha hb (by norm_num)
  refine ⟨hpart1, h2, ?_, ?_⟩
  · rw [h2, abs_lt]
    constructor <;> norm_num
  · rw [h2]
    have hfl : (⌊(2702600 : ℚ) / 30000⌋ : ℤ) = 90 := by norm_num
    have htr : pytrunc ((2702600 : ℚ) / 30000) = 90 := by
      unfold pytrunc
      rw [if_neg (by norm_num), hfl]
    unfold format_time
    rw [htr]
    decide

theorem C6_rational_start_witness :
    fraction_to_float (("2702600").toList ++ '/' :: ("30000").toList) =
      2702600 / 30000 := by
  have ha : pyfloat (("2702600").toList) = some 2702600 := by
    rw [pyfloat_of_digits (("2702600").toList) (("2702600").toList)
      (by decide) (by decide) (by decide)]
    rw [show digVal (("2702600").toList) = 2702600 from by decide]
    norm_num
  have hb : pyfloat (("30000").toList) = some 30000 := by
    rw [pyfloat_of_digits (("30000").toList) (("30000").toList)
      (by decide) (by decide) (by decide)]
    rw [show digVal (("30000").toList) = 30000 from by decide]
    norm_num
  exact C6_rational_start.1 (("2702600").toList) (("30000").toList)
    2702600 30000 (by decide) (by decide) ha hb (by norm_num)

/-- Claim C7: whenever numeric parsing of a start text fails — no slash
and an unparsable number, an unparsable part around a slash, or a slash
count that breaks the two-way split — the seconds value is 0 and no
failure escapes; extraction continues with the remaining markers, and an
unparsable start such as `abc s` yields the formatted time 00:00. -/
theorem C7_parse_fallback :
    (∀ s, '/' ∉ s → pyfloat s = none → fraction_to_float s = 0) ∧
      (∀ A B, '/' ∉ A → '/' ∉ B → pyfloat A = none →
        fraction_to_float (A ++ '/' :: B) = 0) ∧
      (∀ A B, '/' ∉ A → '/' ∉ B → pyfloat B = none →
        fraction_to_float (A ++ '/' :: B) = 0) ∧
      (∀ s, '/' ∈ s → (pysplit '/' s).length ≠ 2 →
        fraction_to_float s = 0) ∧
      fraction_to_float (("abc").toList) = 0 ∧
      format_time 0 = ("00:00").toList ∧
      extract_markers
          (("<chapter-marker start=\"abc s\" value=\"L\"><chapter-marker start=\"65s\" value=\"B\">").toList) =
        [("00:00 L").toList, ("01:05 B").toList] := by
  have habc : fraction_to_float (("abc").toList) = 0 := by
    unfold fraction_to_float
    rw [if_neg (by decide)]
    rw [show pyfloat (("abc").toList) = none from by decide]
    rfl
  refine ⟨?_, ?_, ?_, ?_, habc, by decide, ?_⟩
  · intro s hs hp
    unfold fraction_to_float
    rw [if_neg hs, hp]
    rfl
  · intro A B hA hB hp
    unfold fraction_to_float
    rw [if_pos (by simp : '/' ∈ A ++ '/' :: B)]
    rw [pysplit_append A hA, pysplit_not_mem B hB]
    rw [show fracOfParts [A, B] = divOrZero (pyfloat A) (pyfloat B) from rfl]
    rw [hp]
    rfl
  · intro A B hA hB hp
    unfold fraction_to_float
    rw [if_pos (by simp : '/' ∈ A ++ '/' :: B)]
    rw [pysplit_append A hA, pysplit_not_mem B hB]
    rw [show fracOfParts [A, B] = divOrZero (pyfloat A) (pyfloat B) from rfl]
    rw [hp]
    cases pyfloat A <;> rfl
  · intro s hs hlen
    unfold fraction_to_float
    rw [if_pos hs]
    match hsp : pysplit '/' s with
    | [] => rfl
    | [x] => rfl
    | [x, y] => rw [hsp] at hlen; simp at hlen
    | x :: y :: z :: w => rfl
  · have h65 : fraction_to_float (("65").toList) = 65 := by
      rw [fraction_of_digits (("65").toList) (("65").toList) (by decide)
        (by decide) (by decide) (by decide)]
      rw [show digVal (("65").toList) = 65 from by decide]
      norm_num
    have h1 : matchAt
        (("<chapter-marker start=\"abc s\" value=\"L\"><chapter-marker start=\"65s\" value=\"B\">").toList) =
        some (("abc ").toList, ("L").toList,
          ("<chapter-marker start=\"65s\" value=\"B\">").toList) := by decide
    have h2 : matchAt
        (("<chapter-marker start=\"65s\" value=\"B\">").toList) =
        some (("65").toList, ("B").toList, []) := by decide
    rw [extract_markers_eq, finditer_match h1, finditer_match h2,
      finditer_nil]
    rw [markerLines_eq]
    rw [show dedupFirst [(("abc ").toList, ("L").toList),
        (("65").toList, ("B").toList)] =
      [(("abc ").toList, ("L").toList), (("65").toList, ("B").toList)]
      from by decide]
    have hL : fmtLine ((("abc ").toList, ("L").toList)) =
        ("00:00 L").toList := by
      unfold fmtLine
      rw [show pystrip ((("abc ").toList, ("L").toList)).1 =
        ("abc").toList from by decide]
      rw [habc]
      rw [show format_time 0 = ("00:00").toList from by decide]
      decide
    have hB : fmtLine ((("65").toList, ("B").toList)) =
        ("01:05 B").toList := by
      unfold fmtLine
      rw [show pystrip ((("65").toList, ("B").toList)).1 = ("65").toList
        from by decide]
      rw [h65]
      rw [show format_time 65 = ("01:05").toList from by decide]
      decide
    rw [List.map_cons, List.map_cons, List.map_nil, hL, hB]

theorem C7_parse_fallback_witness :
    fraction_to_float (("abc").toList) = 0 :=
  C7_parse_fallback.1 (("abc").toList) (by decide) (by decide)

/-- Claim C8, counterexample: a tag named `chapter-marker-x` — whose name
is not exactly `chapter-marker` — is nevertheless matched and contributes
an output entry, because the pattern's `\b` after the literal treats the
hyphen as a word boundary.  This refutes the claim that only tags named
exactly `chapter-marker` contribute. -/
theorem C8_counterexample :
    extract_markers (("<chapter-marker-x start=\"1s\" value=\"q\">").toList) =
      [("00:01 q").toList] := by
  have h1 : matchAt (("<chapter-marker-x start=\"1s\" value=\"q\">").toList) =
      some (("1").toList, ("q").toList, []) := by decide
  rw [extract_markers_eq, finditer_match h1, finditer_nil, markerLines_eq]
  rw [show dedupFirst [((("1").toList, ("q").toList))] =
    [((("1").toList, ("q").toList))] from by decide]
  rw [List.map_cons, List.map_nil]
  have hq : fmtLine ((("1").toList, ("q").toList)) = ("00:01 q").toList := by
    unfold fmtLine
    rw [show pystrip ((("1").toList, ("q").toList)).1 = ("1").toList from
      by decide]
    rw [show fraction_to_float (("1").toList) = 1 from ?_]
    · rw [show format_time 1 = ("00:01").toList from by decide]
      decide
    · rw [fraction_of_digits (("1").toList) (("1").toList) (by decide)
        (by decide) (by decide) (by decide)]
      rw [show digVal (("1").toList) = 1 from by decide]
      norm_num
  rw [hq]

/-- Claim C8 (amended): every successful match begins with the literal
`<chapter-marker` followed by a non-word character (the pattern's `\b`) —
so a text with no occurrence of the literal yields no output, and in
particular a well-formed `marker` tag produces no output entry; but tag
names that merely extend `chapter-marker` past a non-word character, such
as `chapter-marker-x`, are still matched (see the counterexample), so
exact-name matching fails. -/
theorem C8_match_guard :
    (∀ (s : List Char) (r : MatchRes), matchAt s = some r →
        s.take 15 = chapLit ∧
        ∀ ch, (s.drop 15).head? = some ch → wordChar ch = false) ∧
      (∀ s : List Char, (∀ n, n ≤ s.length → (s.drop n).take 15 ≠ chapLit) →
        extract_markers s = []) ∧
      extract_markers (("<marker start=\"10s\" value=\"X\">").toList) = [] := by
  refine ⟨?_, ?_, ?_⟩
  · intro s r h
    by_cases ht : s.take 15 = chapLit
    · refine ⟨ht, fun ch hch => ?_⟩
      unfold matchAt at h
      rw [if_pos ht] at h
      cases hdrop : s.drop 15 with
      | nil =>
        rw [hdrop] at hch
        simp at hch
      | cons c0 s1 =>
        rw [hdrop] at h hch
        simp only [List.head?_cons, Option.some.injEq] at hch
        subst hch
        replace h : (if wordChar c0 = true then none
          else m2 'r' (c0 :: s1)) = some r := h
        by_cases hw : wordChar c0
        · rw [if_pos hw] at h
          cases h
        · simpa using hw
    · rw [matchAt_none_take ht] at h
      cases h
  · intro s h
    rw [extract_markers_eq,
      finditer_eq_nil s (fun n hn => matchAt_none_take (h n hn))]
    rfl
  · rw [extract_markers_eq, finditer_eq_nil]
    · rfl
    · decide

theorem C8_match_guard_witness :
    (("<chapter-marker start=\"0s\" value=\"A\">").toList).take 15 =
      chapLit :=
  (C8_match_guard.1
    (("<chapter-marker start=\"0s\" value=\"A\">").toList)
    ((("0").toList, ("A").toList, [])) (by decide)).1

/-- Claim C9: when input resolution fails, `main` prints exactly the
user-facing error line and performs no output write. -/
theorem C9_no_write_on_error (fs : FS) (input output e : List Char)
    (h : resolve_input_path fs input = .error e) :
    (pymain fs input output).wrote = none ∧
      (pymain fs input output).printed = [("错误: ").toList ++ e] := by
  unfold pymain
  rw [h]
  exact ⟨rfl, rfl⟩

theorem C9_no_write_on_error_witness :
    (pymain emptyFS (("./Info.fcpxml").toList)
      (("./FCPtimemarker.txt").toList)).wrote = none :=
  (C9_no_write_on_error emptyFS (("./Info.fcpxml").toList)
    (("./FCPtimemarker.txt").toList)
    (("输入文件 ./Info.fcpxml 不存在").toList) (by rfl)).1

/-- Claim C10: a start text whose denominator part parses to zero
converts to 0 rather than failing — the float division by zero raised by
Python is caught by the same fallback; in particular `5/0` yields 0. -/
theorem C10_zero_denominator :
    (∀ A B, '/' ∉ A → '/' ∉ B → pyfloat B = some 0 →
        fraction_to_float (A ++ '/' :: B) = 0) ∧
      fraction_to_float (("5/0").toList) = 0 := by
  have hpart1 : ∀ A B, '/' ∉ A → '/' ∉ B → pyfloat B = some 0 →
      fraction_to_float (A ++ '/' :: B) = 0 := by
    intro A B hA hB hb
    unfold fraction_to_float
    rw [if_pos (by simp : '/' ∈ A ++ '/' :: B)]
    rw [pysplit_append A hA, pysplit_not_mem B hB]
    rw [show fracOfParts [A, B] = divOrZero (pyfloat A) (pyfloat B) from rfl]
    rw [hb]
    cases hfa : pyfloat A with
    | none => rfl
    | some a =>
      rw [show divOrZero (some a) (some 0) = if (0 : ℚ) = 0 then 0
        else a / 0 from rfl]
      rw [if_pos rfl]
  have h0 : pyfloat (("0").toList) = some 0 := by
    rw [pyfloat_of_digits (("0").toList) (("0").toList) (by decide)
      (by decide) (by decide)]
    rw [show digVal (("0").toList) = 0 from by decide]
    norm_num
  refine ⟨hpart1, ?_⟩
  rw [show ("5/0").toList = ("5").toList ++ '/' :: ("0").toList
    from by decide]
  exact hpart1 (("5").toList) (("0").toList) (by decide) (by decide) h0

theorem C10_zero_denominator_witness :
    fraction_to_float (("5").toList ++ '/' :: ("0").toList) = 0 := by
  have h0 : pyfloat (("0").toList) = some 0 := by
    rw [pyfloat_of_digits (("0").toList) (("0").toList) (by decide)
      (by decide) (by decide)]
    rw [show digVal (("0").toList) = 0 from by decide]
    norm_num
  exact C10_zero_denominator.1 (("5").toList) (("0").toList) (by decide)
    (by decide) h0

end FCPX
